import Mathlib

/-!
Verification of the n8n vCenter SOAP client (`helpers/soapClient.ts` and the
axios-based variant), modelled as a shallow embedding: the transport layer,
the XML envelope codec, endpoint normalization, and the inventory traversal
and name-matching engine of `searchVMByName` / `findVmsByName`.
-/

namespace VCSoap

/-- One HTTP response as seen by the `https.request` callback in
`sendSoapRequest`: status code, the `Set-Cookie` header values, and the
fully-read body. -/
structure HttpResponse where
  statusCode : Nat
  setCookie : List String
  body : String
deriving Repr, DecidableEq

/-- Outcome of one network attempt: a response, a connection-level error
(`req.on('error')`), or the timeout path (`req.setTimeout` destroying the
request, which surfaces through the same error event). -/
inductive NetOutcome where
  | response (r : HttpResponse)
  | netError (msg : String)
deriving Repr, DecidableEq

/-- The failure cases of the xml2js-based client, one constructor per distinct
`throw new Error(...)` site.  The code raises plain `Error`s whose messages
distinguish the cases; the constructors carry the same information. -/
inductive SoapFailure where
  /-- `req.on('error')` / the timeout destroying the request. -/
  | connFailure (msg : String)
  /-- `Failed to parse SOAP response: ...` in `parseSoapBody`. -/
  | parseFailed
  /-- `Invalid SOAP response: missing body` in `parseSoapBody`. -/
  | missingBody
  /-- `SOAP Fault: <faultstring>` in `parseSoapBody`; carries the fault string. -/
  | remoteFault (msg : String)
  /-- Shape checks such as `SessionManager reference not found` and
  `Unexpected RetrieveServiceContent response`. -/
  | protocolFailure (msg : String)
  /-- `Authentication failed: session cookie not received` in `login`. -/
  | authFailed
deriving Repr, DecidableEq

/-- The lowercase search pattern of the cookie regex
`/vmware_soap_session=([^;]+)/i` in `extractSessionCookie`. -/
def sessionKey : List Char := "vmware_soap_session=".toList

/-- Scan one `Set-Cookie` value for the session cookie, mirroring
`cookie.match(/vmware_soap_session=([^;]+)/i)`: find the first position where
the pattern matches case-insensitively and a non-empty run of non-semicolon
characters follows, and return that run (the capture group). -/
def scanSession : List Char → Option (List Char)
  | [] => none
  | c :: rest =>
    if ((c :: rest).take sessionKey.length).map Char.toLower = sessionKey then
      let val := ((c :: rest).drop sessionKey.length).takeWhile (fun ch => ch ≠ ';')
      if val = [] then scanSession rest else some val
    else scanSession rest

/-- `extractSessionCookie(cookies)`: first cookie matching the session regex
wins; the result is re-prefixed with the canonical cookie name, as in
`` `vmware_soap_session=${match[1]}` ``. -/
def extractSessionCookie : List String → Option String
  | [] => none
  | c :: rest =>
    match scanSession c.toList with
    | some val => some ("vmware_soap_session=" ++ String.mk val)
    | none => extractSessionCookie rest

/-- Session-cookie update performed inside the `https.request` response
callback: when the `Set-Cookie` headers yield a session cookie it overwrites
the current one, otherwise the current cookie is left unchanged. -/
def sessionAfterResponse (cookie : Option String) (r : HttpResponse) : Option String :=
  match extractSessionCookie r.setCookie with
  | some c => some c
  | none => cookie

/-- The resolution behaviour of `sendSoapRequest`: given the current session
cookie and the network outcome, produce the updated cookie and the settled
promise.  The response branch extracts the cookie and then resolves the
response body; the status code is read only for the debug log and never
influences the result.  Connection errors and the timeout path reject. -/
def sendSoapRequestOutcome (cookie : Option String) (out : NetOutcome) :
    Option String × Except SoapFailure String :=
  match out with
  | .response r => (sessionAfterResponse cookie r, .ok r.body)
  | .netError m => (cookie, .error (.connFailure m))

/-!
## XML documents

Model of the XML documents exchanged on the wire and of the xml2js parse
(`parseStringPromise` with `explicitArray: false`, `stripPrefix` processors
and `mergeAttrs`).  Names, attribute values and character data are kept as
`List Char` so that the tokenizer can be reasoned about by list induction.
-/

/-- An XML node: an element with a (possibly namespace-prefixed) tag name,
attributes and children, or a run of character data. -/
inductive Xml where
  | elem (name : List Char) (attrs : List (List Char × List Char)) (children : List Xml)
  | txt (s : List Char)
deriving Repr

/-- Tokens produced by scanning an XML document left to right. -/
inductive XTok where
  | tagOpen (name : List Char) (attrs : List (List Char × List Char))
  | tagClose (name : List Char)
  | tagSelf (name : List Char) (attrs : List (List Char × List Char))
  | chars (s : List Char)
deriving Repr, DecidableEq

/-- Whitespace, as in the lexical grammar of XML tags. -/
def isSpaceChar (c : Char) : Bool :=
  c = ' ' || c = '\n' || c = '\t' || c = '\r'

theorem dropWhile_length_le (p : Char → Bool) (l : List Char) :
    (l.dropWhile p).length ≤ l.length := by
  induction l with
  | nil => simp [List.dropWhile]
  | cons c rest ih =>
    by_cases h : p c = true <;> simp [List.dropWhile, h] <;> omega

/-- Parse one `name="value"` attribute at the head of the input (after any
leading whitespace has been skipped). -/
def attrStep (l : List Char) : Option ((List Char × List Char) × List Char) :=
  let nm := l.takeWhile (fun ch => ch ≠ '=' && !isSpaceChar ch)
  match l.drop nm.length with
  | '=' :: '"' :: r2 =>
    let v := r2.takeWhile (fun ch => ch ≠ '"')
    match r2.drop v.length with
    | '"' :: r4 => some ((nm, v), r4)
    | _ => none
  | _ => none

theorem attrStep_progress {l r : List Char} {a : List Char × List Char}
    (h : attrStep l = some (a, r)) : r.length < l.length := by
  simp only [attrStep] at h
  split at h
  · rename_i r2 heq
    split at h
    · rename_i r4 heq2
      cases h
      have h1 : (l.drop (l.takeWhile (fun ch => ch ≠ '=' && !isSpaceChar ch)).length).length
          ≤ l.length := by
        rw [List.length_drop]; omega
      have h2 : (r2.drop (r2.takeWhile (fun ch => ch ≠ '"')).length).length ≤ r2.length := by
        rw [List.length_drop]; omega
      rw [heq] at h1
      rw [heq2] at h2
      simp [List.length_cons] at h1 h2
      omega
    · exact absurd h (by simp)
  · exact absurd h (by simp)

/-- Parse the attribute region of a tag: zero or more `name="value"` pairs
separated by whitespace. -/
def parseAttrs (l : List Char) : Option (List (List Char × List Char)) :=
  match l with
  | [] => some []
  | c :: rest =>
    if isSpaceChar c then parseAttrs rest
    else
      match h : attrStep (c :: rest) with
      | some (a, r4) => (parseAttrs r4).map (fun as => a :: as)
      | none => none
termination_by l.length
decreasing_by
  · simp
  · exact attrStep_progress h

/-- Interpret the content of a scanned tag (everything between `<` and `>`):
detect the self-closing slash, split off the name, and parse the attribute
region.  `r4` is the input remaining after the `>`. -/
def tagTok (content r4 : List Char) : Option (Option XTok × List Char) :=
  let selfClosing := content.getLast? = some '/'
  let content2 := if selfClosing then content.dropLast else content
  let nm := content2.takeWhile (fun ch => !isSpaceChar ch && ch ≠ '/')
  match parseAttrs (content2.drop nm.length) with
  | some attrs =>
    some (some (if selfClosing then .tagSelf nm attrs else .tagOpen nm attrs), r4)
  | none => none

theorem tagTok_rest {content r4 r : List Char} {t : Option XTok}
    (h : tagTok content r4 = some (t, r)) : r = r4 := by
  simp only [tagTok] at h
  split at h
  · cases h; rfl
  · exact absurd h (by simp)

/-- Scan one token starting at the head of the input.  Returns the token (or
`none` for a skipped `<?...?>` prologue) and the remaining input. -/
def nextTok (l : List Char) : Option (Option XTok × List Char) :=
  match l with
  | [] => none
  | c :: rest =>
    if c = '<' then
      match rest with
      | [] => none
      | d :: r2 =>
        if d = '?' then
          match r2.dropWhile (fun ch => ch ≠ '>') with
          | '>' :: r4 => some (none, r4)
          | _ => none
        else if d = '/' then
          match r2.dropWhile (fun ch => ch ≠ '>') with
          | '>' :: r4 => some (some (.tagClose (r2.takeWhile (fun ch => ch ≠ '>'))), r4)
          | _ => none
        else
          match (d :: r2).dropWhile (fun ch => ch ≠ '>') with
          | '>' :: r4 => tagTok ((d :: r2).takeWhile (fun ch => ch ≠ '>')) r4
          | _ => none
    else
      some (some (.chars ((c :: rest).takeWhile (fun ch => ch ≠ '<'))),
            (c :: rest).dropWhile (fun ch => ch ≠ '<'))

theorem dropWhile_cons_length {r4 : List Char} {g : Char} {p : Char → Bool} {l : List Char}
    (h : l.dropWhile p = g :: r4) : r4.length < l.length := by
  have := dropWhile_length_le p l
  rw [h] at this
  simp [List.length_cons] at this
  omega

theorem nextTok_progress {l r : List Char} {t : Option XTok}
    (h : nextTok l = some (t, r)) : r.length < l.length := by
  match l with
  | [] => simp [nextTok] at h
  | c :: rest =>
    simp only [nextTok] at h
    split at h
    · rename_i hc
      match rest with
      | [] => simp at h
      | d :: r2 =>
        simp only at h
        split at h
        · split at h
          · rename_i r4 heq
            cases h
            have := dropWhile_cons_length heq
            simp [List.length_cons]
            omega
          · exact absurd h (by simp)
        · split at h
          · split at h
            · rename_i r4 heq
              cases h
              have := dropWhile_cons_length heq
              simp [List.length_cons]
              omega
            · exact absurd h (by simp)
          · split at h
            · rename_i r4 heq
              have hr := tagTok_rest h
              subst hr
              have := dropWhile_cons_length heq
              simp [List.length_cons] at this ⊢
              omega
            · exact absurd h (by simp)
    · cases h
      rename_i hc
      have hpc : (fun ch => ch ≠ '<') c = true := by simpa using hc
      simp [List.dropWhile, hpc]
      exact Nat.lt_succ_of_le (dropWhile_length_le _ rest)

/-- Tokenize a document left to right. -/
def tokenizeAux (l : List Char) : Option (List XTok) :=
  if hne : l = [] then some []
  else
    match h2 : nextTok l with
    | some (some t, r) => (tokenizeAux r).map (fun ts => t :: ts)
    | some (none, r) => tokenizeAux r
    | none => none
termination_by l.length
decreasing_by
  · exact nextTok_progress h2
  · exact nextTok_progress h2

mutual

/-- Build one node from a token stream (fuel-indexed recursive descent). -/
def buildNode : Nat → List XTok → Option (Xml × List XTok)
  | 0, _ => none
  | _+1, .chars s :: rest => some (.txt s, rest)
  | _+1, .tagSelf n as :: rest => some (.elem n as [], rest)
  | f+1, .tagOpen n as :: rest =>
    match buildNodes f rest with
    | some (cs, .tagClose n2 :: r2) => if n2 = n then some (.elem n as cs, r2) else none
    | _ => none
  | _+1, _ => none

/-- Build a run of sibling nodes, stopping at a closing tag or at the end of
the stream. -/
def buildNodes : Nat → List XTok → Option (List Xml × List XTok)
  | 0, _ => none
  | _+1, [] => some ([], [])
  | _+1, .tagClose n :: rest => some ([], .tagClose n :: rest)
  | f+1, ts =>
    match buildNode f ts with
    | some (x, r) =>
      match buildNodes f r with
      | some (xs, r2) => some (x :: xs, r2)
      | none => none
    | none => none
end

/-- Render an attribute list, one leading space per attribute. -/
def renderAttrsChars : List (List Char × List Char) → List Char
  | [] => []
  | (k, v) :: rest => ' ' :: (k ++ '=' :: '"' :: (v ++ '"' :: renderAttrsChars rest))

mutual

/-- Render an XML node back to characters: childless elements use the
self-closing form, others an explicit closing tag. -/
def renderChars : Xml → List Char
  | .txt s => s
  | .elem n as [] => '<' :: (n ++ renderAttrsChars as ++ '/' :: ['>'])
  | .elem n as cs =>
    '<' :: (n ++ renderAttrsChars as ++ '>' ::
      (renderListChars cs ++ '<' :: '/' :: (n ++ ['>'])))

/-- Render a list of sibling nodes. -/
def renderListChars : List Xml → List Char
  | [] => []
  | x :: xs => renderChars x ++ renderListChars xs
end

mutual

/-- The token sequence of one node. -/
def toksNode : Xml → List XTok
  | .txt s => [.chars s]
  | .elem n as [] => [.tagSelf n as]
  | .elem n as cs => .tagOpen n as :: (toksListNodes cs ++ [.tagClose n])

/-- The token sequence of a list of sibling nodes. -/
def toksListNodes : List Xml → List XTok
  | [] => []
  | x :: xs => toksNode x ++ toksListNodes xs
end

/-- Characters allowed in tag and attribute names (enough for every name this
client emits; excludes the tag metacharacters the tokenizer keys on). -/
def validNameChar (c : Char) : Bool :=
  c.isAlpha || c.isDigit || c = '_' || c = '-' || c = '.' || c = ':'

/-- A usable tag or attribute name. -/
def validName (n : List Char) : Bool :=
  !n.isEmpty && n.all validNameChar

/-- Attribute values must not contain the quote or tag delimiters. -/
def validAttrVal (v : List Char) : Bool :=
  v.all (fun c => c ≠ '"' && c ≠ '<' && c ≠ '>')

/-- Character data must be non-empty and free of tag-open characters. -/
def validText (s : List Char) : Bool :=
  !s.isEmpty && s.all (fun c => c ≠ '<')

/-- No two adjacent character-data children (adjacent runs would fuse when
re-tokenized). -/
def noAdjTxt : List Xml → Bool
  | .txt _ :: .txt _ :: _ => false
  | _ :: rest => noAdjTxt rest
  | [] => true

mutual

/-- Well-formedness of a node: valid names, attribute values and text, and no
adjacent text children anywhere. -/
def wfXml : Xml → Bool
  | .txt s => validText s
  | .elem n as cs =>
    validName n && as.all (fun a => validName a.1 && validAttrVal a.2) &&
      wfList cs && noAdjTxt cs

/-- Well-formedness of every node of a list. -/
def wfList : List Xml → Bool
  | [] => true
  | x :: xs => wfXml x && wfList xs
end

/-- Is this node an element? -/
def isElemNode : Xml → Bool
  | .elem _ _ _ => true
  | .txt _ => false

/-- Parse a whole document: tokenize, build the node forest, and return the
unique root element (whitespace runs outside the root are tolerated, as in
xml2js). -/
def parseChars (l : List Char) : Option Xml :=
  match tokenizeAux l with
  | none => none
  | some ts =>
    match buildNodes (ts.length + 1) ts with
    | some (nodes, []) =>
      match nodes.filter isElemNode with
      | [root] => some root
      | _ => none
    | _ => none

/-- The xml2js `stripPrefix` name processor: drop everything up to and
including the first colon. -/
def localName (n : List Char) : List Char :=
  match n.dropWhile (fun c => c ≠ ':') with
  | [] => n
  | _ :: rest => rest

/-- The element's tag name (text runs have none). -/
def xmlName : Xml → List Char
  | .elem n _ _ => n
  | .txt _ => []

/-- Is this child an element whose stripped name matches? -/
def childPred (nm : List Char) : Xml → Bool
  | .elem n _ _ => localName n == nm
  | .txt _ => false

/-- Access a property of the parsed value as xml2js exposes it: the first
child element whose stripped name matches. -/
def firstChildNamed (x : Xml) (nm : List Char) : Option Xml :=
  match x with
  | .txt _ => none
  | .elem _ _ cs => cs.find? (childPred nm)

/-- With `mergeAttrs: true` an attribute also becomes a key of the parsed
object; a non-empty attribute value is truthy. -/
def attrTruthy (x : Xml) (nm : List Char) : Bool :=
  match x with
  | .elem _ as _ => as.any (fun a => localName a.1 == nm && !a.2.isEmpty)
  | .txt _ => false

/-- The character content of an element (concatenation of its direct text
children), which is what xml2js returns for a text-only element. -/
def textContent : Xml → List Char
  | .txt s => s
  | .elem _ _ cs =>
    cs.foldr (fun c acc =>
      (match c with
       | .txt s => s
       | .elem _ _ _ => []) ++ acc) []

/-- `parseSoapBody(xml)`: parse, navigate `parsed?.Envelope?.Body`, raise the
missing-body error when absent, detect `body.Fault` and surface
`SOAP Fault: <faultstring>` (with `Unknown fault` when the fault string is
missing or empty), otherwise return the body node.

Modelling note: a `Body` key contributed by an attribute merge is not
modelled — `Body` is matched as a child element, which is the only shape the
protocol produces. -/
def parseSoapBody (xml : String) : Except SoapFailure Xml :=
  match parseChars xml.toList with
  | none => .error .parseFailed
  | some root =>
    if localName (xmlName root) == "Envelope".toList then
      match firstChildNamed root "Body".toList with
      | none => .error .missingBody
      | some body =>
        match firstChildNamed body "Fault".toList with
        | some fault =>
          let fs :=
            match firstChildNamed fault "faultstring".toList with
            | some fsElem => textContent fsElem
            | none => []
          .error (.remoteFault (if fs.isEmpty then "Unknown fault" else String.mk fs))
        | none =>
          if attrTruthy body "Fault".toList then .error (.remoteFault "Unknown fault")
          else .ok body
    else .error .missingBody

/-!
## Endpoint normalization

Model of `normalizeEndpoint`, which runs the server address through the
WHATWG `URL` constructor, rejects non-`https:` schemes, and pins the path to
`/sdk/vimService` while clearing query and fragment.  The `URL` behaviour is
modelled for addresses of the shape
`scheme://[userinfo@]host[:port][/path][?query][#fragment]`: scheme and host
are lowercased, default and leading-zero ports are normalized, an empty path
becomes `/`.  (Percent-encoding and dot-segment path normalization are not
modelled; the path is overwritten by `normalizeEndpoint` anyway.)
-/

/-- A parsed URL, fields as exposed by the JS `URL` object. -/
structure UrlModel where
  protocol : List Char
  userinfo : Option (List Char)
  host : List Char
  port : List Char
  pathname : List Char
  search : List Char
  hash : List Char
deriving Repr, DecidableEq

/-- Characters permitted in a scheme. -/
def schemeChar (c : Char) : Bool :=
  c.isAlpha || c.isDigit || c = '+' || c = '-' || c = '.'

/-- Split `authority` at the last `@` into userinfo and host-port. -/
def splitUserinfo (authority : List Char) : Option (List Char) × List Char :=
  let revHostport := authority.reverse.takeWhile (fun c => c ≠ '@')
  match authority.reverse.dropWhile (fun c => c ≠ '@') with
  | '@' :: revUi => (some revUi.reverse, revHostport.reverse)
  | _ => (none, revHostport.reverse)

/-- Parse the optional `:port` suffix, normalizing leading zeros and eliding
the https default port 443. -/
def parsePort (l : List Char) : Option (List Char) :=
  match l with
  | [] => some []
  | ':' :: digits =>
    if digits.all Char.isDigit then
      if digits = [] then some []
      else
        let stripped := digits.dropWhile (fun c => c = '0')
        if stripped = "443".toList then some []
        else if stripped = [] then some ['0']
        else some stripped
    else none
  | _ => none

/-- Parse a URL string (shape described in the section header). -/
def parseUrl (l : List Char) : Option UrlModel :=
  let scheme := l.takeWhile (fun c => c ≠ ':')
  if scheme = [] || !scheme.all schemeChar then none
  else
    match l.drop scheme.length with
    | ':' :: '/' :: '/' :: r =>
      let authority := r.takeWhile (fun c => c ≠ '/' && c ≠ '?' && c ≠ '#')
      let r2 := r.drop authority.length
      let (ui, hostport) := splitUserinfo authority
      let host := hostport.takeWhile (fun c => c ≠ ':')
      if host = [] then none
      else
        match parsePort (hostport.drop host.length) with
        | none => none
        | some port =>
          let path := r2.takeWhile (fun c => c ≠ '?' && c ≠ '#')
          let r3 := r2.drop path.length
          let search := r3.takeWhile (fun c => c ≠ '#')
          let hash := r3.drop search.length
          some {
            protocol := scheme.map Char.toLower ++ [':'],
            userinfo := ui,
            host := host.map Char.toLower,
            port := port,
            pathname := if path = [] then ['/'] else path,
            search := if search = ['?'] then [] else search,
            hash := if hash = ['#'] then [] else hash }
    | _ => none

/-- Serialize a URL back to its string form. -/
def urlString (u : UrlModel) : List Char :=
  u.protocol ++ '/' :: '/' ::
    ((match u.userinfo with
      | some ui => ui ++ ['@']
      | none => []) ++
     u.host ++
     (if u.port.isEmpty then [] else ':' :: u.port) ++
     u.pathname ++ u.search ++ u.hash)

/-- `normalizeEndpoint(serverUrl)`: parse the address (`new URL` throws on an
unparseable one), require the `https:` scheme, then pin
`pathname = '/sdk/vimService'` and clear `search` and `hash`. -/
def normalizeEndpoint (serverUrl : String) : Except String UrlModel :=
  match parseUrl serverUrl.toList with
  | none => .error "Invalid URL"
  | some u =>
    if u.protocol ≠ "https:".toList then .error "Server URL must use https"
    else .ok { u with pathname := "/sdk/vimService".toList, search := [], hash := [] }

/-!
## Inventory search (`searchVMByName`)

Model of the discovery and matching engine of the xml2js client's
`searchVMByName`, over an abstract server inventory.  The SOAP wire format is
abstracted away: one `ValEntry` stands for one `<val type="...">moRef</val>`
entry as returned by `extractValMoRefs`, and the per-object property fetches
(`name`, `runtime.powerState`, `summary.config.uuid`,
`summary.config.vmPathName`) are fields of the inventory.  `folderChildren`
is a finite association list — the remote inventory is finite — with a
missing folder answering the empty child list.
-/

/-- One managed-object reference extracted from a `<val>` element: the id and
the optional `type` attribute. -/
structure ValEntry where
  moRef : String
  typeTag : Option String
deriving Repr, DecidableEq

/-- The abstract server inventory backing one search. -/
structure Inventory where
  /-- `<val>` entries of the root folder's `childEntity` response. -/
  rootChildren : List ValEntry
  /-- The `name` property from the per-datacenter details response. -/
  dcName : String → Option String
  /-- The `vmFolder` reference obtained from the per-datacenter details
  response (the property value, or the code's `group-v` fallback scan of the
  same response; `none` when neither yields a folder). -/
  dcVmFolder : String → Option String
  /-- `<val>` entries of each folder's `childEntity` response. -/
  folderChildren : List (String × List ValEntry)
  /-- The `name` property of a virtual machine (absent when the server
  returns no row for it). -/
  vmName : String → Option String
  /-- `runtime.powerState` of a virtual machine. -/
  vmPowerState : String → Option String
  /-- `summary.config.uuid` of a virtual machine. -/
  vmUuid : String → Option String
  /-- `summary.config.vmPathName` of a virtual machine. -/
  vmPathName : String → Option String

/-- Children of one folder (an unknown folder has none). -/
def childrenOf (inv : Inventory) (f : String) : List ValEntry :=
  match inv.folderChildren.find? (fun e => e.1 == f) with
  | some e => e.2
  | none => []

/-- The requested match mode of a search. -/
inductive MatchMode where
  | exact
  | contains
deriving Repr, DecidableEq

/-- The caller-supplied parameters of `searchVMByName`. -/
structure SearchParams where
  nameQuery : String
  matchMode : MatchMode
  maxResults : Nat
  includePowerState : Bool
  includeUuidAndPath : Bool
deriving Repr, DecidableEq

/-- The name filter of `searchVMByName`:
`matchMode === 'exact' ? vmName === nameQuery : vmName.includes(nameQuery)`.
`String.includes` is a (case-sensitive) substring test. -/
def listInfixOf (needle hay : List Char) : Bool :=
  hay.tails.any (fun t => needle.isPrefixOf t)

/-- The name filter of searchVMByName (see doc below). -/
def vmNameMatches (mode : MatchMode) (nameQuery vmName : String) : Bool :=
  match mode with
  | .exact => vmName == nameQuery
  | .contains => listInfixOf nameQuery.toList vmName.toList

/-- `String.startsWith`, by comparison of the character lists (the JS
`String.prototype.startsWith`). -/
def strStartsWith (s p : String) : Bool :=
  p.toList.isPrefixOf s.toList

/-- Classification of one child entry during folder traversal, mirroring the
`if/else if` chain: an entry is a folder when its type tag is `Folder` or its
id starts with `group-v`; otherwise a virtual machine when its type tag is
`VirtualMachine` or its id starts with `vm-`; otherwise ignored. -/
inductive ChildKind where
  | folder
  | vm
  | other
deriving Repr, DecidableEq

/-- Classify one `<val>` entry. -/
def classifyChild (e : ValEntry) : ChildKind :=
  if e.typeTag == some "Folder" || strStartsWith e.moRef "group-v" then .folder
  else if e.typeTag == some "VirtualMachine" || strStartsWith e.moRef "vm-" then .vm
  else .other

/-- Mutable traversal state shared across all datacenters: the visited-folder
and visited-VM sets, the discovery-ordered VM list, the first-wins
VM-to-datacenter attribution map, and the ordered log of folder-children
fetches issued. -/
structure TraversalState where
  visitedFolders : List String
  visitedVMs : List String
  discoveredVmList : List String
  vmToDatacenter : List (String × String × String)
  folderFetches : List String
deriving Repr, DecidableEq

/-- Process the child entries of one fetched folder, in response order:
folders are appended to the queue; a virtual machine not yet visited is
recorded once and attributed to the current datacenter. -/
def processChildren (dcRef dcNm : String) (children : List ValEntry)
    (queue : List String) (st : TraversalState) : List String × TraversalState :=
  match children with
  | [] => (queue, st)
  | e :: rest =>
    match classifyChild e with
    | .folder => processChildren dcRef dcNm rest (queue ++ [e.moRef]) st
    | .vm =>
      if e.moRef ∈ st.visitedVMs then processChildren dcRef dcNm rest queue st
      else
        processChildren dcRef dcNm rest queue
          { st with
            visitedVMs := e.moRef :: st.visitedVMs,
            discoveredVmList := st.discoveredVmList ++ [e.moRef],
            vmToDatacenter := st.vmToDatacenter ++ [(e.moRef, dcRef, dcNm)] }
    | .other => processChildren dcRef dcNm rest queue st

/-- Folders of the inventory (termination measure domain). -/
def folderDomain (inv : Inventory) : List String :=
  inv.folderChildren.map (fun e => e.1)

/-- Unvisited part of the folder domain (termination measure). -/
def unvisitedCount (inv : Inventory) (st : TraversalState) : Nat :=
  ((folderDomain inv).filter (fun f => f ∉ st.visitedFolders)).length

theorem processChildren_visitedFolders (dcRef dcNm : String) (children : List ValEntry)
    (queue : List String) (st : TraversalState) :
    (processChildren dcRef dcNm children queue st).2.visitedFolders = st.visitedFolders := by
  induction children generalizing queue st with
  | nil => rfl
  | cons e rest ih =>
    simp only [processChildren]
    cases classifyChild e with
    | folder => exact ih _ _
    | vm =>
      by_cases h : e.moRef ∈ st.visitedVMs
      · simp [h]; exact ih _ _
      · simp [h]; exact ih _ _
    | other => exact ih _ _

theorem length_filter_mono {α : Type} (l : List α) (p q : α → Bool)
    (h : ∀ x, p x = true → q x = true) :
    (l.filter p).length ≤ (l.filter q).length := by
  induction l with
  | nil => simp
  | cons x xs ih =>
    by_cases hp : p x = true
    · have hq := h x hp
      simp [hp, hq]
      omega
    · by_cases hq : q x = true <;>
        simp [List.filter_cons, hp, hq] <;> omega

theorem unvisited_strict {l vis : List String} {a : String} (ha : a ∈ l) (hv : a ∉ vis) :
    (l.filter (fun f => decide (f ∉ a :: vis))).length
      < (l.filter (fun f => decide (f ∉ vis))).length := by
  induction l with
  | nil => cases ha
  | cons x xs ih =>
    rw [List.filter_cons, List.filter_cons]
    by_cases hxa : x = a
    · subst hxa
      rw [if_neg (by simp), if_pos (by simpa using hv)]
      have hmono := length_filter_mono xs (fun f => decide (f ∉ x :: vis))
        (fun f => decide (f ∉ vis)) (by intro y hy; simp at hy ⊢; exact hy.2)
      simp only [List.length_cons]
      omega
    · have ha2 : a ∈ xs := by
        cases ha with
        | head => exact absurd rfl hxa
        | tail _ h => exact h
      have hsame : (decide (x ∉ a :: vis)) = (decide (x ∉ vis)) := by simp [hxa]
      rw [hsame]
      by_cases hx : (decide (x ∉ vis)) = true
      · rw [if_pos hx, if_pos hx]
        simpa using ih ha2
      · rw [if_neg (by simpa using hx), if_neg (by simpa using hx)]
        exact ih ha2

theorem unvisited_congr {l vis : List String} {a : String} (ha : a ∉ l) :
    l.filter (fun f => decide (f ∉ a :: vis)) = l.filter (fun f => decide (f ∉ vis)) := by
  induction l with
  | nil => rfl
  | cons x xs ih =>
    have hxa : x ≠ a := fun h => ha (h ▸ List.mem_cons_self x xs)
    have ha2 : a ∉ xs := fun h => ha (List.mem_cons_of_mem x h)
    have hsame : (decide (x ∉ a :: vis)) = (decide (x ∉ vis)) := by simp [hxa]
    simp only [List.filter_cons, hsame, ih ha2]

theorem childrenOf_not_mem {inv : Inventory} {f : String} (h : f ∉ folderDomain inv) :
    childrenOf inv f = [] := by
  unfold childrenOf
  cases hfind : inv.folderChildren.find? (fun e => e.1 == f) with
  | none => rfl
  | some e =>
    exfalso
    have hmem := List.find?_some hfind
    have hel := List.mem_of_find?_eq_some hfind
    apply h
    unfold folderDomain
    have : e.1 = f := by simpa using hmem
    exact this ▸ List.mem_map_of_mem (fun x => x.1) hel

/-- Breadth-first traversal of one datacenter's folder tree (`while` loop at
the heart of `searchVMByName`): dequeue a folder, skip it when already
visited, otherwise mark it visited, fetch its children and classify them.
The visited-folder set is shared across datacenters, which also bounds the
recursion: every iteration either visits a new inventory folder or shortens
the queue. -/
def bfsLoop (inv : Inventory) (dcRef dcNm : String) (queue : List String)
    (st : TraversalState) : TraversalState :=
  match queue with
  | [] => st
  | f :: rest =>
    if hv : f ∈ st.visitedFolders then bfsLoop inv dcRef dcNm rest st
    else
      let st1 : TraversalState :=
        { st with visitedFolders := f :: st.visitedFolders,
                  folderFetches := st.folderFetches ++ [f] }
      let next := processChildren dcRef dcNm (childrenOf inv f) rest st1
      bfsLoop inv dcRef dcNm next.1 next.2
termination_by (unvisitedCount inv st, queue.length)
decreasing_by
  · apply Prod.Lex.right
    simp
  · have hvf : (processChildren dcRef dcNm (childrenOf inv c) rest
        { st with visitedFolders := c :: st.visitedFolders,
                  folderFetches := st.folderFetches ++ [c] }).2.visitedFolders
        = c :: st.visitedFolders :=
      processChildren_visitedFolders _ _ _ _ _
    by_cases hdom : c ∈ folderDomain inv
    · apply Prod.Lex.left
      unfold unvisitedCount
      rw [hvf]
      exact unvisited_strict hdom hv
    · have hch : childrenOf inv c = [] := childrenOf_not_mem hdom
      rw [hch]
      simp only [processChildren]
      have hequ : unvisitedCount inv
          { st with visitedFolders := c :: st.visitedFolders,
                    folderFetches := st.folderFetches ++ [c] }
          = unvisitedCount inv st := by
        unfold unvisitedCount
        exact congrArg List.length (unvisited_congr hdom)
      rw [hequ]
      apply Prod.Lex.right
      simp

/-- References classified as datacenters among the root folder's children:
explicit `Datacenter` type tag, or the `datacenter-` id prefix fallback. -/
def datacenterRefs (inv : Inventory) : List String :=
  (inv.rootChildren.filter
    (fun e => e.typeTag == some "Datacenter" || strStartsWith e.moRef "datacenter-")).map
    (fun e => e.moRef)

/-- The empty traversal state. -/
def emptyTraversal : TraversalState := ⟨[], [], [], [], []⟩

/-- The discovery phase of `searchVMByName`: for each datacenter, resolve its
name (defaulting to the reference id) and its `vmFolder`, skip the datacenter
when no folder was found, and run the folder traversal seeded with that
folder.  All traversal state is shared across datacenters. -/
def runTraversal (inv : Inventory) : TraversalState :=
  (datacenterRefs inv).foldl
    (fun st dc =>
      match inv.dcVmFolder dc with
      | none => st
      | some vmFolder =>
        bfsLoop inv dc ((inv.dcName dc).getD dc) [vmFolder] st)
    emptyTraversal

/-- Slicing loop of `chunkArray`, indexed by a fuel that the wrapper sets
above the list length (each non-final step drops at least one element, so
the fuel is never exhausted on the reachable arguments). -/
def chunkArrayGo {α : Type} (size : Nat) : Nat → List α → List (List α)
  | 0, _ => []
  | g+1, l =>
    if l.isEmpty then []
    else if size = 0 then [l]
    else l.take size :: chunkArrayGo size g (l.drop size)

/-- `chunkArray(items, size)`: consecutive slices of the given size.  The
source only ever calls it with size 100; a zero size returns the whole list
in one chunk so that the model stays total. -/
def chunkArray {α : Type} (size : Nat) (l : List α) : List (List α) :=
  chunkArrayGo size (l.length + 1) l

/-- The inner matching loop over one name-fetch response: push each matching
`(ref, name)` row, breaking as soon as the running match count reaches
`maxResults`. -/
def matchChunk (p : SearchParams) (rows : List (String × String))
    (acc : List (String × String)) : List (String × String) :=
  match rows with
  | [] => acc
  | (ref, nm) :: rest =>
    if vmNameMatches p.matchMode p.nameQuery nm then
      let acc2 := acc ++ [(ref, nm)]
      if p.maxResults ≤ acc2.length then acc2 else matchChunk p rest acc2
    else matchChunk p rest acc

/-- The name-fetch loop of `searchVMByName`: iterate over 100-element chunks
of the discovered VM list; before each chunk, stop when the match count has
reached `maxResults`; otherwise issue one name-fetch request (counted),
collect the `(ref, name)` rows the server returns for the chunk, and run the
matching loop; stop after the chunk when the cap is reached. -/
def nameFetchLoop (inv : Inventory) (p : SearchParams) :
    List (List String) → List (String × String) → Nat → List (String × String) × Nat
  | [], acc, k => (acc, k)
  | chunk :: rest, acc, k =>
    if p.maxResults ≤ acc.length then (acc, k)
    else
      let rows := chunk.filterMap (fun ref => (inv.vmName ref).map (fun n => (ref, n)))
      let acc2 := matchChunk p rows acc
      if p.maxResults ≤ acc2.length then (acc2, k + 1)
      else nameFetchLoop inv p rest acc2 (k + 1)

/-- Assemble one result record for a matched VM, as an association list whose
keys are exactly the keys the code sets on `entry`: `moRef` first, the
datacenter attribution when the traversal recorded one, then one key per
property present in the detail response (only requested path sets are
returned), and the fallback `name` captured during matching when the detail
pass yielded none. -/
def buildEntry (inv : Inventory) (p : SearchParams)
    (vmToDc : List (String × String × String)) (nameMatches : List (String × String))
    (ref : String) : List (String × String) :=
  let dcPart :=
    match vmToDc.find? (fun e => e.1 == ref) with
    | some e => [("datacenterMoRef", e.2.1), ("datacenterName", e.2.2)]
    | none => []
  let nameProp :=
    match inv.vmName ref with
    | some n => [("name", n)]
    | none => []
  let psProp :=
    if p.includePowerState then
      match inv.vmPowerState ref with
      | some v => [("powerState", v)]
      | none => []
    else []
  let uuidProp :=
    if p.includeUuidAndPath then
      (match inv.vmUuid ref with
       | some v => [("uuid", v)]
       | none => []) ++
      (match inv.vmPathName ref with
       | some v => [("vmPathName", v)]
       | none => [])
    else []
  let fallbackName :=
    if nameProp.isEmpty then
      match nameMatches.find? (fun e => e.1 == ref) with
      | some e => [("name", e.2)]
      | none => []
    else []
  ("moRef", ref) :: (dcPart ++ nameProp ++ psProp ++ uuidProp ++ fallbackName)

/-- The result of one `searchVMByName` run: the returned records plus the
request counts the claims reason about. -/
structure SearchOutcome where
  results : List (List (String × String))
  folderFetches : List String
  nameFetches : Nat
  detailFetches : Nat
deriving Repr, DecidableEq

/-- The phases of `searchVMByName` after the discovery traversal: fetch names
in chunks and match, short-circuit on an empty match set, fetch details for
the matched set only (one request per 100-element chunk), assemble records,
and truncate to `maxResults`. -/
def searchAssemble (inv : Inventory) (p : SearchParams) (trav : TraversalState) :
    SearchOutcome :=
  let mres := nameFetchLoop inv p (chunkArray 100 trav.discoveredVmList) [] 0
  let matchedRows := mres.1
  let nameFetches := mres.2
  if matchedRows.isEmpty then
    { results := [], folderFetches := trav.folderFetches,
      nameFetches := nameFetches, detailFetches := 0 }
  else
    let matchedChunks := chunkArray 100 (matchedRows.map (fun e => e.1))
    let results :=
      (matchedChunks.map
        (fun chunk => chunk.map (buildEntry inv p trav.vmToDatacenter matchedRows))).join
    { results := results.take p.maxResults,
      folderFetches := trav.folderFetches,
      nameFetches := nameFetches,
      detailFetches := matchedChunks.length }

/-- `searchVMByName` proper: the discovery traversal followed by the
matching, detail and assembly phases. -/
def searchVMByName (inv : Inventory) (p : SearchParams) : SearchOutcome :=
  searchAssemble inv p (runTraversal inv)


/-!
## `findVmsByName` (axios client)

Model of the axios-based client's `findVmsByName`, over its own abstract
inventory.  That client normalizes `<val>` entries to bare reference strings
(`normalizeValues`), classifies purely by id prefix (`group-` / `vm-`), always
filters case-insensitively, and assembles `VmSummary` objects whose optional
keys are always present — set to `undefined` when not requested.
-/

/-- A JS value held in a `VmSummary` field: a string, the nested datacenter
object, or `undefined`.  A key mapped to `undef` is present on the object
(`'powerState' in summary` is true), unlike an absent key. -/
inductive JsVal where
  | str (s : String)
  | dcObj (name moRef : String)
  | undef
deriving Repr, DecidableEq

/-- The abstract inventory behind one `findVmsByName` run. -/
structure AxInventory where
  /-- Normalized `childEntity` of the root folder. -/
  rootChildren : List String
  /-- Response rows of `getDatacentersInfo`: `(moRef, name, vmFolder)`. -/
  dcRows : List (String × String × String)
  /-- Normalized `childEntity` of each folder. -/
  folderChildren : List (String × List String)
  /-- `name` row of `getVmNames` for one VM. -/
  vmName : String → Option String
  /-- `runtime.powerState` row of `getVmDetails`. -/
  vmPower : String → Option String
  /-- `summary.config.uuid` row of `getVmDetails`. -/
  vmUuid : String → Option String
  /-- `summary.config.vmPathName` row of `getVmDetails`. -/
  vmPath : String → Option String

/-- The caller options of `findVmsByName` (after `maxResults ?? 100`). -/
structure AxOptions where
  nameQuery : String
  maxResults : Nat
  includePowerState : Bool
  includeUuid : Bool
deriving Repr, DecidableEq

/-- Children of one folder in the axios inventory. -/
def axChildrenOf (inv : AxInventory) (f : String) : List String :=
  match inv.folderChildren.find? (fun e => e.1 == f) with
  | some e => e.2
  | none => []

/-- Folders of the axios inventory (termination measure domain). -/
def axFolderDomain (inv : AxInventory) : List String :=
  inv.folderChildren.map (fun e => e.1)

/-- Traversal state of `findVmsByName`: visited folders, visited VMs in
insertion order (a JS `Set` preserves it, and `Array.from` reads it back),
and the count of folder-children fetches. -/
structure AxTravState where
  visitedFolders : List String
  visitedVMs : List String
  folderFetchCount : Nat
deriving Repr, DecidableEq

/-- Record the `vm-` children of a fetched folder, skipping already-visited
ones. -/
def axAddVms (vms : List String) (st : AxTravState) : AxTravState :=
  match vms with
  | [] => st
  | vm :: rest =>
    if vm ∈ st.visitedVMs then axAddVms rest st
    else axAddVms rest { st with visitedVMs := st.visitedVMs ++ [vm] }

theorem axAddVms_visitedFolders (vms : List String) (st : AxTravState) :
    (axAddVms vms st).visitedFolders = st.visitedFolders := by
  induction vms generalizing st with
  | nil => rfl
  | cons vm rest ih =>
    simp only [axAddVms]
    by_cases h : vm ∈ st.visitedVMs
    · simp [h]; exact ih st
    · simp [h]; exact ih _

/-- Unvisited folders of the axios inventory (termination measure). -/
def axUnvisited (inv : AxInventory) (st : AxTravState) : Nat :=
  ((axFolderDomain inv).filter (fun f => f ∉ st.visitedFolders)).length

theorem axChildrenOf_not_mem {inv : AxInventory} {f : String}
    (h : f ∉ axFolderDomain inv) : axChildrenOf inv f = [] := by
  unfold axChildrenOf
  cases hfind : inv.folderChildren.find? (fun e => e.1 == f) with
  | none => rfl
  | some e =>
    exfalso
    have hmem := List.find?_some hfind
    have hel := List.mem_of_find?_eq_some hfind
    apply h
    unfold axFolderDomain
    have : e.1 = f := by simpa using hmem
    exact this ▸ List.mem_map_of_mem (fun x => x.1) hel

/-- The `while` loop of `findVmsByName`: run while the queue is non-empty and
the running matched count is below `maxResults` (the matched list is only
filled after the loop, so that count is the constant 0 the call site passes);
dequeue, skip visited folders, fetch children, enqueue `group-` children with
the same datacenter attribution, record unvisited `vm-` children. -/
def axBfs (inv : AxInventory) (maxResults mc : Nat)
    (queue : List (String × String × String)) (st : AxTravState) : AxTravState :=
  match queue with
  | [] => st
  | entry :: rest =>
    if maxResults ≤ mc then st
    else if hv : entry.1 ∈ st.visitedFolders then axBfs inv maxResults mc rest st
    else
      let st1 : AxTravState :=
        { st with visitedFolders := entry.1 :: st.visitedFolders,
                  folderFetchCount := st.folderFetchCount + 1 }
      let children := axChildrenOf inv entry.1
      let folders := children.filter (fun id => strStartsWith id "group-")
      let vms := children.filter (fun id => strStartsWith id "vm-")
      let st2 := axAddVms vms st1
      axBfs inv maxResults mc
        (rest ++ folders.map (fun f2 => (f2, entry.2.1, entry.2.2))) st2
termination_by (axUnvisited inv st, queue.length)
decreasing_by
  · apply Prod.Lex.right
    simp
  · have hvf : (axAddVms
        ((axChildrenOf inv entry.1).filter (fun id => strStartsWith id "vm-"))
        { st with visitedFolders := entry.1 :: st.visitedFolders,
                  folderFetchCount := st.folderFetchCount + 1 }).visitedFolders
        = entry.1 :: st.visitedFolders :=
      axAddVms_visitedFolders _ _
    by_cases hdom : entry.1 ∈ axFolderDomain inv
    · apply Prod.Lex.left
      unfold axUnvisited
      rw [hvf]
      exact unvisited_strict hdom hv
    · have hch : axChildrenOf inv entry.1 = [] := axChildrenOf_not_mem hdom
      rw [hch]
      have hequ : axUnvisited inv
          (axAddVms (List.filter (fun id => strStartsWith id "vm-") [])
            { st with visitedFolders := entry.1 :: st.visitedFolders,
                      folderFetchCount := st.folderFetchCount + 1 })
          = axUnvisited inv st := by
        unfold axUnvisited
        rw [axAddVms_visitedFolders]
        exact congrArg List.length (unvisited_congr hdom)
      rw [hequ]
      apply Prod.Lex.right
      simp

/-- Lowercased character list of a JS string (`String.toLowerCase`). -/
def jsToLowerList (s : String) : List Char := s.toList.map Char.toLower

/-- The name filter of `findVmsByName`:
`name.toLowerCase().includes(nameQuery.toLowerCase())`. -/
def axNameFilter (q nm : String) : Bool :=
  listInfixOf (jsToLowerList q) (jsToLowerList nm)

/-- One `VmSummary` object pushed by the assembly loop.  Every key is
present; unrequested optional fields carry `undefined`. -/
def axRecord (inv : AxInventory) (o : AxOptions) (dc : String × String × String)
    (vm : String) : List (String × JsVal) :=
  [("moRef", .str vm),
   ("name", match inv.vmName vm with | some n => .str n | none => .undef),
   ("datacenter", .dcObj dc.2.1 dc.1),
   ("powerState",
     if o.includePowerState then
       match inv.vmPower vm with | some v => .str v | none => .undef
     else .undef),
   ("uuid",
     if o.includeUuid then
       match inv.vmUuid vm with | some v => .str v | none => .undef
     else .undef),
   ("vmPathName",
     if o.includeUuid then
       match inv.vmPath vm with | some v => .str v | none => .undef
     else .undef)]

/-- The assembly loop of `findVmsByName` over the datacenter-major candidate
sequence, pushing until the matched count reaches `maxResults`. -/
def axPushLoop (maxResults : Nat) (candidates acc : List (List (String × JsVal))) :
    List (List (String × JsVal)) :=
  match candidates with
  | [] => acc
  | r :: rest =>
    if maxResults ≤ acc.length then acc
    else axPushLoop maxResults rest (acc ++ [r])

/-- The result of one `findVmsByName` run, with the request counts. -/
structure AxOutcome where
  items : List (List (String × JsVal))
  folderFetchCount : Nat
  nameFetches : Nat
  detailFetches : Nat
deriving Repr, DecidableEq

/-- Datacenter info rows of `findVmsByName`: root children with the
`datacenter-` id prefix, resolved against the datacenter-info response
(`(moRef, name, vmFolder)` rows). -/
def axDcInfo (inv : AxInventory) : List (String × String × String) :=
  (inv.rootChildren.filter (fun id => strStartsWith id "datacenter-")).filterMap
    (fun id => inv.dcRows.find? (fun r => r.1 == id))

/-- The phases of `findVmsByName` after the traversal: fetch all VM names in
one call, filter case-insensitively, fetch details when requested, and
assemble by iterating datacenters in the outer loop and filtered VMs in the
inner loop, capped at `maxResults`. -/
def axAssemble (inv : AxInventory) (o : AxOptions) (trav : AxTravState) : AxOutcome :=
  let dcInfo := axDcInfo inv
  let vmList := trav.visitedVMs
  let filteredIds :=
    vmList.filter (fun id => axNameFilter o.nameQuery ((inv.vmName id).getD ""))
  let candidates :=
    (dcInfo.map (fun dc => filteredIds.map (fun vm => axRecord inv o dc vm))).join
  { items := axPushLoop o.maxResults candidates [],
    folderFetchCount := trav.folderFetchCount,
    nameFetches := 1,
    detailFetches := if o.includePowerState || o.includeUuid then 1 else 0 }

/-- `findVmsByName` proper: the shared-queue traversal seeded with every
datacenter's `vmFolder`, followed by the assembly phases. -/
def findVmsByName (inv : AxInventory) (o : AxOptions) : AxOutcome :=
  axAssemble inv o
    (axBfs inv o.maxResults 0 ((axDcInfo inv).map (fun r => (r.2.2, r.2.1, r.1)))
      ⟨[], [], 0⟩)


/-!
## Client operations over a scripted server

The composite operations (`retrieveServiceContent`, `login`,
`testConnection`, the session phase of `searchVMByName`) are modelled as
state transformers over a `ClientState`.  The network is a script: response
`n` answers the `n`-th request of the client instance.  The issued requests
are logged with the `Cookie` header they carried.
-/

/-- One issued request: the operation and the `Cookie` header attached (the
header is present exactly when a session cookie was held at send time). -/
structure SoapRequest where
  action : String
  cookieHeader : Option String
deriving Repr, DecidableEq

/-- Client-instance state: the session cookie, the index of the next network
exchange, and the log of issued requests. -/
structure ClientState where
  cookie : Option String
  step : Nat
  requests : List SoapRequest
deriving Repr, DecidableEq

/-- One `sendSoapRequest` call: issue the request carrying the current
cookie, consume the next scripted outcome, update the cookie from the
response's `Set-Cookie` headers, and settle with the raw body or a
connection failure. -/
def sendSoapRequestM (script : Nat → NetOutcome) (st : ClientState) (action : String) :
    ClientState × Except SoapFailure String :=
  let res := sendSoapRequestOutcome st.cookie (script st.step)
  ({ cookie := res.1, step := st.step + 1,
     requests := st.requests ++ [⟨action, st.cookie⟩] }, res.2)

/-- JS truthiness of an xml2js node value: an element with attributes or
child elements parses to an object (truthy); otherwise its text, which is
falsy exactly when empty. -/
def nodeTruthy (x : Xml) : Bool :=
  match x with
  | .txt s => !s.isEmpty
  | .elem n as cs =>
    !as.isEmpty || cs.any isElemNode || !(textContent (.elem n as cs)).isEmpty

/-- The result of `retrieveServiceContent`. -/
structure ServiceContent where
  aboutApiType : Option (List Char)
  aboutFullName : Option (List Char)
  aboutVersion : Option (List Char)
  aboutBuild : Option (List Char)
  sessionManager : List Char
  rootFolder : Option (List Char)
  propertyCollector : Option (List Char)
deriving Repr, DecidableEq

/-- The text content of a named child, when present. -/
def childText (x : Xml) (nm : String) : Option (List Char) :=
  (firstChildNamed x nm.toList).map textContent

/-- `retrieveServiceContent()`: send the fixed envelope, parse the body,
require a truthy `returnval.about` and `returnval.sessionManager`, and read
the reference and version fields. -/
def retrieveServiceContentM (script : Nat → NetOutcome) (st : ClientState) :
    ClientState × Except SoapFailure ServiceContent :=
  let s1 := sendSoapRequestM script st "RetrieveServiceContent"
  match s1.2 with
  | .error e => (s1.1, .error e)
  | .ok xmlStr =>
    match parseSoapBody xmlStr with
    | .error e => (s1.1, .error e)
    | .ok body =>
      match (firstChildNamed body "RetrieveServiceContentResponse".toList).bind
          (fun r => firstChildNamed r "returnval".toList) with
      | none => (s1.1, .error (.protocolFailure "Unexpected RetrieveServiceContent response"))
      | some rv =>
        match firstChildNamed rv "about".toList, firstChildNamed rv "sessionManager".toList with
        | some about, some sm =>
          if nodeTruthy about && nodeTruthy sm then
            (s1.1, .ok {
              aboutApiType := childText about "apiType",
              aboutFullName := childText about "fullName",
              aboutVersion := childText about "version",
              aboutBuild := childText about "build",
              sessionManager := textContent sm,
              rootFolder := childText rv "rootFolder",
              propertyCollector := childText rv "propertyCollector" })
          else
            (s1.1, .error (.protocolFailure "Unexpected RetrieveServiceContent response"))
        | _, _ =>
          (s1.1, .error (.protocolFailure "Unexpected RetrieveServiceContent response"))

/-- `login(sessionManager)`: send the credentials envelope, parse the body
(surfacing any fault), then fail with the authentication error when no
session cookie was captured by the transport. -/
def loginM (script : Nat → NetOutcome) (st : ClientState) :
    ClientState × Except SoapFailure Unit :=
  let s1 := sendSoapRequestM script st "Login"
  match s1.2 with
  | .error e => (s1.1, .error e)
  | .ok xmlStr =>
    match parseSoapBody xmlStr with
    | .error e => (s1.1, .error e)
    | .ok _ =>
      if s1.1.cookie.isSome then (s1.1, .ok ()) else (s1.1, .error .authFailed)

/-- The record returned by `testConnection`. -/
structure ConnSummary where
  connected : Bool
  apiType : Option (List Char)
  fullName : Option (List Char)
  version : List Char
  build : List Char
deriving Repr, DecidableEq

/-- `testConnection()`: fetch the service content, require a session-manager
reference, authenticate, fetch the service content again, and summarize.
Every failure propagates unchanged. -/
def testConnectionM (script : Nat → NetOutcome) (st : ClientState) :
    ClientState × Except SoapFailure ConnSummary :=
  let r1 := retrieveServiceContentM script st
  match r1.2 with
  | .error e => (r1.1, .error e)
  | .ok firstContent =>
    if firstContent.sessionManager.isEmpty then
      (r1.1, .error (.protocolFailure "SessionManager reference not found"))
    else
      let r2 := loginM script r1.1
      match r2.2 with
      | .error e => (r2.1, .error e)
      | .ok _ =>
        let r3 := retrieveServiceContentM script r2.1
        match r3.2 with
        | .error e => (r3.1, .error e)
        | .ok second =>
          (r3.1, .ok {
            connected := true,
            apiType := second.aboutApiType,
            fullName := second.aboutFullName,
            version := second.aboutVersion.getD [],
            build := second.aboutBuild.getD [] })

/-- Shape check on the service content used by the search. -/
def scCheck (st : ClientState) (sc : ServiceContent) :
    ClientState × Except SoapFailure ServiceContent :=
  if sc.rootFolder.isNone || sc.propertyCollector.isNone then
    (st, .error (.protocolFailure "Service content missing rootFolder or propertyCollector"))
  else (st, .ok sc)

/-- The session-establishment phase of `searchVMByName`: fetch the service
content, require a session-manager reference, log in only when no session
cookie is held, then re-fetch the service content when a cookie is held
(falling back to the initial content otherwise), and check it carries the
root folder and property collector. -/
def searchSessionPhase (script : Nat → NetOutcome) (st : ClientState) :
    ClientState × Except SoapFailure ServiceContent :=
  let r1 := retrieveServiceContentM script st
  match r1.2 with
  | .error e => (r1.1, .error e)
  | .ok initialContent =>
    if initialContent.sessionManager.isEmpty then
      (r1.1, .error (.protocolFailure "SessionManager reference not found"))
    else
      let afterLogin :=
        if r1.1.cookie.isNone then loginM script r1.1 else (r1.1, .ok ())
      match afterLogin.2 with
      | .error e => (afterLogin.1, .error e)
      | .ok _ =>
        if afterLogin.1.cookie.isSome then
          let r2 := retrieveServiceContentM script afterLogin.1
          match r2.2 with
          | .error e => (r2.1, .error e)
          | .ok sc => scCheck r2.1 sc
        else scCheck afterLogin.1 initialContent

/-- Number of login requests in a request log. -/
def loginCount (reqs : List SoapRequest) : Nat :=
  (reqs.filter (fun r => r.action == "Login")).length


/-!
## Envelope construction

`buildEnvelope` wraps a payload in the fixed envelope lines (joined with
newlines) after running it through `ensureRetrievePropertiesExOptions`, which
appends a missing `<options/>` element to the first `RetrievePropertiesEx`
block.  The three regexes of that helper are modelled as explicit scans.
-/

/-- The fixed document text preceding the payload. -/
def envHead : String :=
  "<?xml version=\"1.0\" encoding=\"UTF-8\"?>\n<soapenv:Envelope xmlns:soapenv=\"http://schemas.xmlsoap.org/soap/envelope/\" xmlns:urn=\"urn:vim25\">\n  <soapenv:Body>\n"

/-- The fixed document text following the payload. -/
def envTail : String := "\n  </soapenv:Body>\n</soapenv:Envelope>"

/-- Split a list at the first occurrence of `pat`, returning the part before
and the part after the occurrence. -/
def splitFirst (pat : List Char) : List Char → Option (List Char × List Char)
  | [] => none
  | c :: rest =>
    if pat.isPrefixOf (c :: rest) then some ([], (c :: rest).drop pat.length)
    else (splitFirst pat rest).map (fun pr => (c :: pr.1, pr.2))

/-- Regex word character, for word boundaries. -/
def wordChar (c : Char) : Bool := c.isAlpha || c.isDigit || c = '_'

/-- `<RetrievePropertiesEx`, the opening text of the block regex of
`ensureRetrievePropertiesExOptions`. -/
def rpeOpen : List Char := "<RetrievePropertiesEx".toList

/-- `</RetrievePropertiesEx>`, the closing tag of the same regex. -/
def rpeClose : List Char := "</RetrievePropertiesEx>".toList

/-- Try to match the `RetrievePropertiesEx` block regex at this exact
position: the opening text followed by a non-word character, no `>` until the
end of the opening tag, then lazily anything up to the first closing tag.
Returns the matched block and the rest of the input. -/
def tryRPEAt (l : List Char) : Option (List Char × List Char) :=
  if rpeOpen.isPrefixOf l then
    let r1 := l.drop rpeOpen.length
    if (match r1 with | [] => true | d :: _ => !wordChar d) then
      let attrsPart := r1.takeWhile (fun c => c ≠ '>')
      match r1.drop attrsPart.length with
      | '>' :: r3 =>
        match splitFirst rpeClose r3 with
        | some pr => some (rpeOpen ++ attrsPart ++ '>' :: (pr.1 ++ rpeClose), pr.2)
        | none => none
      | _ => none
    else none
  else none

/-- First match of the block regex, scanning left to right with
backtracking: `(prefix, block, rest)`. -/
def findRPE : List Char → Option (List Char × List Char × List Char)
  | [] => none
  | c :: rest =>
    match tryRPEAt (c :: rest) with
    | some pr => some ([], pr.1, pr.2)
    | none => (findRPE rest).map (fun pr => (c :: pr.1, pr.2.1, pr.2.2))

/-- Does an `options` tag start here (on lowercased input): `<`, an optional
`/`, an optional `urn:` prefix, `options`, and a word boundary. -/
def optionsAt (l : List Char) : Bool :=
  match l with
  | '<' :: r =>
    let r2 := match r with | '/' :: t => t | _ => r
    let r3 := if "urn:".toList.isPrefixOf r2 then r2.drop 4 else r2
    "options".toList.isPrefixOf r3 &&
      (match r3.drop 7 with | [] => true | d :: _ => !wordChar d)
  | _ => false

/-- Scan for an `options` tag anywhere. -/
def scanOptions : List Char → Bool
  | [] => false
  | c :: rest => optionsAt (c :: rest) || scanOptions rest

/-- The case-insensitive `hasOptions` test of
`ensureRetrievePropertiesExOptions`. -/
def hasOptionsTag (l : List Char) : Bool :=
  scanOptions (l.map Char.toLower)

/-- The `<options/>` text inserted before the closing tag. -/
def optionsInsert : List Char := "      <options/>\n    ".toList

/-- `ensureRetrievePropertiesExOptions(innerXml)`: find the first
`RetrievePropertiesEx` block; when it exists and contains no `options` tag,
insert `<options/>` before its closing tag (replacing the first occurrence of
the closing tag inside the block, then the first occurrence of the block
inside the payload, as `String.replace` does). -/
def ensureRetrievePropertiesExOptions (innerXml : String) : String :=
  match findRPE innerXml.toList with
  | none => innerXml
  | some pr =>
    let block := pr.2.1
    if hasOptionsTag block then innerXml
    else
      let newBlock :=
        match splitFirst rpeClose block with
        | some bp => bp.1 ++ optionsInsert ++ rpeClose ++ bp.2
        | none => block
      match splitFirst block innerXml.toList with
      | some ip => String.mk (ip.1 ++ newBlock ++ ip.2)
      | none => innerXml

/-- `buildEnvelope(innerXml)` of the xml2js client: normalize the
`RetrievePropertiesEx` options, then join the fixed envelope lines around the
payload. -/
def buildEnvelope (innerXml : String) : String :=
  envHead ++ ensureRetrievePropertiesExOptions innerXml ++ envTail


/-!
## Derived definitions used by the verification

String-level wrappers, the fuel weights of the tree builder, the document
shape produced by wrapping a payload in the fixed envelope, and concrete
inventories and server scripts used as test fixtures.
-/

/-- Render a node to a string. -/
def renderXml (t : Xml) : String := String.mk (renderChars t)

mutual

/-- Fuel sufficient for `buildNode` to consume the tokens of this node. -/
def weightNode : Xml → Nat
  | .txt _ => 1
  | .elem _ _ [] => 1
  | .elem _ _ (c :: cs) => weightList (c :: cs) + 2

/-- Fuel sufficient for `buildNodes` to consume the tokens of this list. -/
def weightList : List Xml → Nat
  | [] => 0
  | x :: xs => weightNode x + weightList xs
end

/-- Name of the envelope root element. -/
def envName : List Char := "soapenv:Envelope".toList

/-- Attributes of the envelope root element. -/
def envAttrs : List (List Char × List Char) :=
  [("xmlns:soapenv".toList, "http://schemas.xmlsoap.org/soap/envelope/".toList),
   ("xmlns:urn".toList, "urn:vim25".toList)]

/-- Name of the body element. -/
def bodyName : List Char := "soapenv:Body".toList

/-- The body element wrapping a payload that consists of a (possibly empty)
leading character run `sp` followed by one element `t`; the envelope's own
newline fuses with the leading run. -/
def docBody (sp : List Char) (t : Xml) : Xml :=
  .elem bodyName [] [.txt ('\n' :: sp), t, .txt ['\n', ' ', ' ']]

/-- The document forest of a built envelope: the whitespace after the
prologue, then the envelope root. -/
def docForest (sp : List Char) (t : Xml) : List Xml :=
  [.txt ['\n'],
   .elem envName envAttrs [.txt ['\n', ' ', ' '], docBody sp t, .txt ['\n']]]

/-- Does the parsed body node expose this key (a child element with that
stripped name, or a merged attribute)? -/
def bodyHasKey (body : Xml) (nm : List Char) : Bool :=
  (firstChildNamed body nm).isSome || attrTruthy body nm

/-- A two-datacenter inventory for the axios client in which exactly one VM
exists, under the first datacenter. -/
def axDemoInv : AxInventory where
  rootChildren := ["datacenter-1", "datacenter-2"]
  dcRows := [("datacenter-1", "DC-A", "group-v1"), ("datacenter-2", "DC-B", "group-v2")]
  folderChildren := [("group-v1", ["vm-100"]), ("group-v2", [])]
  vmName := fun r => if r = "vm-100" then some "alpha-web" else none
  vmPower := fun r => if r = "vm-100" then some "poweredOn" else none
  vmUuid := fun _ => none
  vmPath := fun _ => none

/-- A one-datacenter, one-folder, one-VM inventory for the xml2js client. -/
def demoInv : Inventory where
  rootChildren := [⟨"datacenter-1", some "Datacenter"⟩]
  dcName := fun r => if r = "datacenter-1" then some "DC-A" else none
  dcVmFolder := fun r => if r = "datacenter-1" then some "group-v1" else none
  folderChildren := [("group-v1", [⟨"vm-1", some "VirtualMachine"⟩])]
  vmName := fun r => if r = "vm-1" then some "web-01" else none
  vmPowerState := fun r => if r = "vm-1" then some "poweredOn" else none
  vmUuid := fun r => if r = "vm-1" then some "42114bd2-0000-0000-0000-000000000000" else none
  vmPathName := fun r => if r = "vm-1" then some "[ds1] web-01/web-01.vmx" else none

/-- The `RetrieveServiceContentResponse` payload a healthy server returns. -/
def scTree : Xml :=
  .elem "RetrieveServiceContentResponse".toList [("xmlns".toList, "urn:vim25".toList)]
    [.elem "returnval".toList []
      [.elem "rootFolder".toList [("type".toList, "Folder".toList)] [.txt "group-d1".toList],
       .elem "propertyCollector".toList [("type".toList, "PropertyCollector".toList)]
         [.txt "propertyCollector".toList],
       .elem "sessionManager".toList [("type".toList, "SessionManager".toList)]
         [.txt "SessionManager".toList],
       .elem "about".toList []
         [.elem "apiType".toList [] [.txt "VirtualCenter".toList],
          .elem "fullName".toList [] [.txt "VMware vCenter Server".toList],
          .elem "version".toList [] [.txt "8.0.2".toList],
          .elem "build".toList [] [.txt "22617221".toList]]]]

/-- The fault payload of a failed call, parameterized by the fault string. -/
def faultTree (m : List Char) : Xml :=
  .elem "soapenv:Fault".toList []
    [.elem "faultcode".toList [] [.txt "ServerFaultCode".toList],
     .elem "faultstring".toList [] [.txt m]]

/-- The `LoginResponse` payload of a successful login. -/
def loginTree : Xml :=
  .elem "LoginResponse".toList [("xmlns".toList, "urn:vim25".toList)]
    [.elem "returnval".toList [("type".toList, "UserSession".toList)]
      [.elem "key".toList [] [.txt "52aa3e3f".toList]]]

/-- A server response carrying a rendered payload in the fixed envelope. -/
def envResponse (status : Nat) (cookies : List String) (t : Xml) : NetOutcome :=
  .response ⟨status, cookies, envHead ++ renderXml t ++ envTail⟩

/-- A healthy script: service content, a login that sets the session cookie,
then service content for every later exchange. -/
def healthyScript : Nat → NetOutcome :=
  fun n =>
    if n = 1 then envResponse 200 ["vmware_soap_session=sess-1; Path=/; HttpOnly"] loginTree
    else envResponse 200 [] scTree

/-- A script whose login call fails with a fault (no cookie anywhere). -/
def faultScript (m : List Char) : Nat → NetOutcome :=
  fun n => if n = 0 then envResponse 200 [] scTree else envResponse 500 [] (faultTree m)

/-- A script whose login call fails with a fault while also setting the
session cookie. -/
def faultCookieScript (m : List Char) : Nat → NetOutcome :=
  fun n =>
    if n = 0 then envResponse 200 [] scTree
    else envResponse 500 ["vmware_soap_session=deadbeef; Path=/"] (faultTree m)

/-- The fresh state of a client instance. -/
def freshClient : ClientState := ⟨none, 0, []⟩

/-- An example `RetrievePropertiesEx` payload (root-children discovery), as
`searchVMByName` builds it. -/
def rpeDemoPayload : String :=
  "    <RetrievePropertiesEx xmlns=\"urn:vim25\">\n      <_this type=\"PropertyCollector\">propertyCollector</_this>\n      <specSet>\n        <propSet>\n          <type>Folder</type>\n          <pathSet>childEntity</pathSet>\n        </propSet>\n        <objectSet>\n          <obj type=\"Folder\">group-d1</obj>\n        </objectSet>\n      </specSet>\n    </RetrievePropertiesEx>"


/-- The tree whose rendering, prefixed with the payload's leading indent, is
exactly `ensureRetrievePropertiesExOptions rpeDemoPayload`. -/
def rpeDemoTree : Xml :=
  .elem "RetrievePropertiesEx".toList [("xmlns".toList, "urn:vim25".toList)]
    [.txt "\n      ".toList,
     .elem "_this".toList [("type".toList, "PropertyCollector".toList)] [.txt "propertyCollector".toList],
     .txt "\n      ".toList,
     .elem "specSet".toList []
       [.txt "\n        ".toList,
        .elem "propSet".toList []
          [.txt "\n          ".toList,
           .elem "type".toList [] [.txt "Folder".toList],
           .txt "\n          ".toList,
           .elem "pathSet".toList [] [.txt "childEntity".toList],
           .txt "\n        ".toList],
        .txt "\n        ".toList,
        .elem "objectSet".toList []
          [.txt "\n          ".toList,
           .elem "obj".toList [("type".toList, "Folder".toList)] [.txt "group-d1".toList],
           .txt "\n        ".toList],
        .txt "\n      ".toList],
     .txt "\n          ".toList,
     .elem "options".toList [] [],
     .txt "\n    ".toList]

/-!
## Tokenizer lemmas

The tokenizer, applied to the rendering of a well-formed document, produces
its token sequence.  These lemmas drive the round-trip results below.
-/

theorem takeWhile_append_all {p : Char → Bool} {a b : List Char}
    (h : ∀ c ∈ a, p c = true) : (a ++ b).takeWhile p = a ++ b.takeWhile p := by
  induction a with
  | nil => simp
  | cons x xs ih =>
    have hx := h x (List.mem_cons_self _ _)
    simp only [List.cons_append, List.takeWhile_cons, hx, if_true]
    rw [ih (fun c hc => h c (List.mem_cons_of_mem _ hc))]

theorem dropWhile_append_all {p : Char → Bool} {a b : List Char}
    (h : ∀ c ∈ a, p c = true) : (a ++ b).dropWhile p = b.dropWhile p := by
  induction a with
  | nil => simp
  | cons x xs ih =>
    have hx := h x (List.mem_cons_self _ _)
    simp only [List.cons_append, List.dropWhile_cons, hx, if_true]
    exact ih (fun c hc => h c (List.mem_cons_of_mem _ hc))

theorem validNameChar_ne {c : Char} (h : validNameChar c = true) :
    c ≠ '=' ∧ c ≠ '>' ∧ c ≠ '<' ∧ c ≠ '/' ∧ c ≠ '?' ∧ c ≠ '"' ∧ isSpaceChar c = false := by
  have hsp : isSpaceChar c = false := by
    by_cases hs : c = ' '
    · subst hs; revert h; decide
    by_cases hn : c = '\n'
    · subst hn; revert h; decide
    by_cases ht : c = '\t'
    · subst ht; revert h; decide
    by_cases hr : c = '\r'
    · subst hr; revert h; decide
    simp [isSpaceChar, hs, hn, ht, hr]
  refine ⟨?_, ?_, ?_, ?_, ?_, ?_, hsp⟩
  all_goals rintro rfl
  all_goals revert h
  all_goals decide

theorem renderAttrs_no_gt {as : List (List Char × List Char)}
    (h : (as.all fun a => validName a.1 && validAttrVal a.2) = true) :
    ∀ c ∈ renderAttrsChars as, c ≠ '>' := by
  induction as with
  | nil => intro c hc; cases hc
  | cons a rest ih =>
    simp only [List.all_cons, Bool.and_eq_true] at h
    obtain ⟨⟨hn, hv⟩, hrest⟩ := h
    simp only [validName, Bool.and_eq_true] at hn
    intro c hc
    simp only [renderAttrsChars, List.mem_cons, List.mem_append] at hc
    rcases hc with rfl | hc
    · decide
    rcases hc with hc | hc
    · obtain ⟨-, hall⟩ := hn
      have hvc := List.all_eq_true.mp hall c hc
      exact (validNameChar_ne hvc).2.1
    rcases hc with rfl | hc
    · decide
    rcases hc with rfl | hc
    · decide
    rcases hc with hc | hc
    · have hvc := List.all_eq_true.mp hv c hc
      simp only [Bool.and_eq_true, decide_eq_true_eq] at hvc
      exact hvc.2
    rcases hc with rfl | hc
    · decide
    · exact ih hrest c hc

theorem renderAttrs_getLast {as : List (List Char × List Char)} (h : as ≠ []) :
    (renderAttrsChars as).getLast? = some '"' := by
  induction as with
  | nil => exact absurd rfl h
  | cons a rest ih =>
    by_cases hr : rest = []
    · subst hr
      have hsh : renderAttrsChars [a] =
          (' ' :: (a.1 ++ '=' :: '"' :: a.2)) ++ ['"'] := by
        simp [renderAttrsChars]
      rw [hsh, List.getLast?_concat]
    · have hsh : renderAttrsChars (a :: rest) =
          (' ' :: (a.1 ++ '=' :: '"' :: (a.2 ++ ['"']))) ++ renderAttrsChars rest := by
        simp [renderAttrsChars]
      rw [hsh, List.getLast?_append, ih hr]
      rfl

theorem attrStep_render {k v rest : List Char}
    (hk : validName k = true) (hv : validAttrVal v = true) :
    attrStep (k ++ '=' :: '"' :: (v ++ '"' :: rest)) = some ((k, v), rest) := by
  simp only [validName, Bool.and_eq_true] at hk
  have hkall : ∀ c ∈ k, (fun ch => ch ≠ '=' && !isSpaceChar ch) c = true := by
    intro c hc
    have hvc := List.all_eq_true.mp hk.2 c hc
    have hne := validNameChar_ne hvc
    simp [hne.1, hne.2.2.2.2.2.2]
  have hvall : ∀ c ∈ v, (decide (c ≠ '"')) = true := by
    intro c hc
    have hvc := List.all_eq_true.mp hv c hc
    simp only [Bool.and_eq_true, decide_eq_true_eq] at hvc
    simp [hvc.1.1]
  have htake : (k ++ '=' :: '"' :: (v ++ '"' :: rest)).takeWhile
      (fun ch => ch ≠ '=' && !isSpaceChar ch) = k := by
    rw [takeWhile_append_all hkall]
    simp [List.takeWhile_cons]
  have htake2 : (v ++ '"' :: rest).takeWhile (fun ch => ch ≠ '"') = v := by
    rw [takeWhile_append_all hvall]
    simp [List.takeWhile_cons]
  unfold attrStep
  simp only [htake, List.drop_left, htake2]

theorem parseAttrs_render {as : List (List Char × List Char)}
    (h : (as.all fun a => validName a.1 && validAttrVal a.2) = true) :
    parseAttrs (renderAttrsChars as) = some as := by
  induction as with
  | nil => simp [parseAttrs, renderAttrsChars]
  | cons a rest ih =>
    simp only [List.all_cons, Bool.and_eq_true] at h
    obtain ⟨⟨hn, hv⟩, hrest⟩ := h
    have hne : a.1 ≠ [] := by
      simp only [validName, Bool.and_eq_true] at hn
      simpa [List.isEmpty_iff] using hn.1
    obtain ⟨k0, k', hk⟩ : ∃ k0 k', a.1 = k0 :: k' := by
      cases hka : a.1 with
      | nil => exact absurd hka hne
      | cons k0 k' => exact ⟨k0, k', rfl⟩
    have hk0 : validNameChar k0 = true := by
      simp only [validName, Bool.and_eq_true] at hn
      exact List.all_eq_true.mp hn.2 k0 (by rw [hk]; exact List.mem_cons_self _ _)
    have hk0sp := (validNameChar_ne hk0).2.2.2.2.2.2
    have hstep := @attrStep_render a.1 a.2 (renderAttrsChars rest) hn hv
    rw [hk] at hstep
    simp only [List.cons_append] at hstep
    have hshape : renderAttrsChars (a :: rest) =
        ' ' :: (k0 :: (k' ++ '=' :: '"' :: (a.2 ++ '"' :: renderAttrsChars rest))) := by
      simp [renderAttrsChars, hk]
    rw [hshape]
    rw [parseAttrs]
    rw [if_pos (show isSpaceChar ' ' = true from rfl)]
    rw [parseAttrs]
    rw [if_neg (by simp [hk0sp])]
    split
    · rename_i a1 r4 heq
      rw [hstep] at heq
      cases heq
      rw [ih hrest]
      simp [← hk]
    · rename_i heq
      rw [hstep] at heq
      simp at heq


theorem name_chars_props {n : List Char} (hn : validName n = true) :
    n ≠ [] ∧ (∀ c ∈ n, (decide (c ≠ '>')) = true) ∧
    (∀ c ∈ n, (decide (c ≠ '<')) = true) ∧
    (∀ c ∈ n, (!isSpaceChar c && decide (c ≠ '/')) = true) := by
  simp only [validName, Bool.and_eq_true] at hn
  obtain ⟨hne, hall⟩ := hn
  refine ⟨by simpa [List.isEmpty_iff] using hne, ?_, ?_, ?_⟩
  · intro c hc
    have := validNameChar_ne (List.all_eq_true.mp hall c hc)
    simp [this.2.1]
  · intro c hc
    have := validNameChar_ne (List.all_eq_true.mp hall c hc)
    simp [this.2.2.1]
  · intro c hc
    have := validNameChar_ne (List.all_eq_true.mp hall c hc)
    simp [this.2.2.2.1, this.2.2.2.2.2.2]

theorem renderAttrs_takeWhile_nm (as : List (List Char × List Char)) :
    (renderAttrsChars as).takeWhile (fun ch => !isSpaceChar ch && decide (ch ≠ '/')) = [] := by
  cases as with
  | nil => rfl
  | cons a rest => simp [renderAttrsChars, List.takeWhile_cons, isSpaceChar]

theorem render_name_getLast {n : List Char} {as : List (List Char × List Char)}
    (hn : validName n = true) :
    ¬ ((n ++ renderAttrsChars as).getLast? = some '/') := by
  cases hras : as with
  | nil =>
    simp only [renderAttrsChars, List.append_nil]
    intro hco
    obtain ⟨hne2, heq⟩ := List.mem_getLast?_eq_getLast (Option.mem_def.mpr hco)
    have hmem : '/' ∈ n := heq ▸ List.getLast_mem hne2
    have := validNameChar_ne (by
      simp only [validName, Bool.and_eq_true] at hn
      exact List.all_eq_true.mp hn.2 _ hmem)
    exact this.2.2.2.1 rfl
  | cons a r =>
    rw [List.getLast?_append, renderAttrs_getLast (by simp)]
    simp

theorem tagTok_nm {n : List Char} {as : List (List Char × List Char)}
    (hn : validName n = true) :
    (n ++ renderAttrsChars as).takeWhile (fun ch => !isSpaceChar ch && decide (ch ≠ '/')) = n := by
  obtain ⟨-, -, -, hnm⟩ := name_chars_props hn
  rw [takeWhile_append_all hnm, renderAttrs_takeWhile_nm, List.append_nil]

theorem tagTok_open {n : List Char} {as : List (List Char × List Char)} {rest : List Char}
    (hn : validName n = true)
    (has : (as.all fun a => validName a.1 && validAttrVal a.2) = true) :
    tagTok (n ++ renderAttrsChars as) rest = some (some (.tagOpen n as), rest) := by
  have hlast := @render_name_getLast n as hn
  unfold tagTok
  simp only []
  rw [if_neg hlast]
  rw [tagTok_nm hn, List.drop_left, parseAttrs_render has]
  simp only []
  rw [if_neg hlast]

theorem tagTok_self {n : List Char} {as : List (List Char × List Char)} {rest : List Char}
    (hn : validName n = true)
    (has : (as.all fun a => validName a.1 && validAttrVal a.2) = true) :
    tagTok (n ++ renderAttrsChars as ++ ['/']) rest = some (some (.tagSelf n as), rest) := by
  have hlast : (n ++ renderAttrsChars as ++ ['/']).getLast? = some '/' := by
    rw [List.getLast?_concat]
  unfold tagTok
  simp only []
  rw [if_pos hlast]
  rw [List.dropLast_concat]
  rw [tagTok_nm hn, List.drop_left, parseAttrs_render has]
  simp only []
  rw [if_pos hlast]

theorem tag_content_split {n : List Char} {as : List (List Char × List Char)} {tail rest : List Char}
    (hn : validName n = true)
    (has : (as.all fun a => validName a.1 && validAttrVal a.2) = true)
    (htail : ∀ c ∈ tail, (decide (c ≠ '>')) = true) :
    (n ++ renderAttrsChars as ++ tail ++ '>' :: rest).takeWhile (fun ch => decide (ch ≠ '>'))
        = n ++ renderAttrsChars as ++ tail ∧
    (n ++ renderAttrsChars as ++ tail ++ '>' :: rest).dropWhile (fun ch => decide (ch ≠ '>'))
        = '>' :: rest := by
  have h1 := (name_chars_props hn).2.1
  have h2 : ∀ c ∈ renderAttrsChars as, (decide (c ≠ '>')) = true := by
    intro c hc
    simp [renderAttrs_no_gt has c hc]
  constructor
  · rw [show n ++ renderAttrsChars as ++ tail ++ '>' :: rest
        = n ++ (renderAttrsChars as ++ (tail ++ '>' :: rest)) by simp]
    rw [takeWhile_append_all h1, takeWhile_append_all h2, takeWhile_append_all htail]
    simp [List.takeWhile_cons]
  · rw [show n ++ renderAttrsChars as ++ tail ++ '>' :: rest
        = n ++ (renderAttrsChars as ++ (tail ++ '>' :: rest)) by simp]
    rw [dropWhile_append_all h1, dropWhile_append_all h2, dropWhile_append_all htail]
    simp [List.dropWhile_cons]

theorem nextTok_tag {d : Char} {r2 : List Char} (hq : d ≠ '?') (hs : d ≠ '/') :
    nextTok ('<' :: d :: r2) =
      match (d :: r2).dropWhile (fun ch => decide (ch ≠ '>')) with
      | '>' :: r4 => tagTok ((d :: r2).takeWhile (fun ch => decide (ch ≠ '>'))) r4
      | _ => none := by
  unfold nextTok
  simp only [if_true]
  rw [if_neg hq, if_neg hs]

theorem nextTok_openTag {n : List Char} {as : List (List Char × List Char)} {rest : List Char}
    (hn : validName n = true)
    (has : (as.all fun a => validName a.1 && validAttrVal a.2) = true) :
    nextTok ('<' :: (n ++ renderAttrsChars as ++ '>' :: rest)) =
      some (some (.tagOpen n as), rest) := by
  obtain ⟨hne, -, -, -⟩ := name_chars_props hn
  obtain ⟨n0, n', hn0⟩ : ∃ n0 n', n = n0 :: n' := by
    cases hna : n with
    | nil => exact absurd hna hne
    | cons n0 n' => exact ⟨n0, n', rfl⟩
  have hv0 : validNameChar n0 = true := by
    simp only [validName, Bool.and_eq_true] at hn
    exact List.all_eq_true.mp hn.2 n0 (by rw [hn0]; exact List.mem_cons_self _ _)
  have hq := (validNameChar_ne hv0).2.2.2.2.1
  have hsl := (validNameChar_ne hv0).2.2.2.1
  have hsplit := @tag_content_split n as [] rest hn has
    (by intro c hc; cases hc)
  simp only [List.append_nil] at hsplit
  subst hn0
  simp only [List.cons_append] at hsplit ⊢
  rw [nextTok_tag hq hsl, hsplit.2, hsplit.1]
  exact tagTok_open hn has

theorem nextTok_selfTag {n : List Char} {as : List (List Char × List Char)} {rest : List Char}
    (hn : validName n = true)
    (has : (as.all fun a => validName a.1 && validAttrVal a.2) = true) :
    nextTok ('<' :: (n ++ renderAttrsChars as ++ '/' :: '>' :: rest)) =
      some (some (.tagSelf n as), rest) := by
  obtain ⟨hne, -, -, -⟩ := name_chars_props hn
  obtain ⟨n0, n', hn0⟩ : ∃ n0 n', n = n0 :: n' := by
    cases hna : n with
    | nil => exact absurd hna hne
    | cons n0 n' => exact ⟨n0, n', rfl⟩
  have hv0 : validNameChar n0 = true := by
    simp only [validName, Bool.and_eq_true] at hn
    exact List.all_eq_true.mp hn.2 n0 (by rw [hn0]; exact List.mem_cons_self _ _)
  have hq := (validNameChar_ne hv0).2.2.2.2.1
  have hsl := (validNameChar_ne hv0).2.2.2.1
  have hsplit := @tag_content_split n as ['/'] rest hn has
    (by intro c hc; simp at hc; subst hc; decide)
  have hsh : n ++ renderAttrsChars as ++ '/' :: '>' :: rest
      = n ++ renderAttrsChars as ++ ['/'] ++ '>' :: rest := by simp
  rw [hsh]
  subst hn0
  simp only [List.cons_append] at hsplit ⊢
  rw [nextTok_tag hq hsl, hsplit.2, hsplit.1]
  have := @tagTok_self (n0 :: n') as rest hn has
  simpa using this

theorem nextTok_closeTag {n : List Char} {rest : List Char} (hn : validName n = true) :
    nextTok ('<' :: '/' :: (n ++ '>' :: rest)) = some (some (.tagClose n), rest) := by
  obtain ⟨hne, hgt, -, -⟩ := name_chars_props hn
  have htake : (n ++ '>' :: rest).takeWhile (fun ch => decide (ch ≠ '>')) = n := by
    rw [takeWhile_append_all hgt]
    simp [List.takeWhile_cons]
  have hdrop : (n ++ '>' :: rest).dropWhile (fun ch => decide (ch ≠ '>')) = '>' :: rest := by
    rw [dropWhile_append_all hgt]
    simp [List.dropWhile_cons]
  unfold nextTok
  simp only [if_true]
  rw [hdrop, htake]
  rw [if_neg (show ¬('/' : Char) = '?' by decide)]
  rfl

theorem nextTok_text {s rest : List Char} (hne : s ≠ [])
    (hs : ∀ c ∈ s, (decide (c ≠ '<')) = true)
    (hrest : rest = [] ∨ ∃ r2, rest = '<' :: r2) :
    nextTok (s ++ rest) = some (some (.chars s), rest) := by
  obtain ⟨c0, s', hc⟩ : ∃ c0 s', s = c0 :: s' := by
    cases hca : s with
    | nil => exact absurd hca hne
    | cons c0 s' => exact ⟨c0, s', rfl⟩
  have hc0 : ¬ c0 = '<' := by
    have := hs c0 (by rw [hc]; exact List.mem_cons_self _ _)
    simpa using this
  have htake : (s ++ rest).takeWhile (fun ch => decide (ch ≠ '<')) = s := by
    rw [takeWhile_append_all hs]
    rcases hrest with rfl | ⟨r2, rfl⟩
    · simp
    · simp [List.takeWhile_cons]
  have hdrop : (s ++ rest).dropWhile (fun ch => decide (ch ≠ '<')) = rest := by
    rw [dropWhile_append_all hs]
    rcases hrest with rfl | ⟨r2, rfl⟩
    · simp
    · simp [List.dropWhile_cons]
  subst hc
  simp only [List.cons_append] at htake hdrop ⊢
  unfold nextTok
  simp only []
  rw [if_neg hc0]
  rw [htake, hdrop]

/-- The XML declaration that opens every built envelope. -/
theorem nextTok_prolog {rest : List Char} :
    nextTok ("<?xml version=\"1.0\" encoding=\"UTF-8\"?>".toList ++ rest) = some (none, rest) :=
  rfl

theorem tokenizeAux_nil : tokenizeAux [] = some [] := by
  rw [tokenizeAux]
  simp

theorem tokenizeAux_tok {l r : List Char} {t : XTok} (hne : l ≠ [])
    (h : nextTok l = some (some t, r)) :
    tokenizeAux l = (tokenizeAux r).map (fun ts => t :: ts) := by
  rw [tokenizeAux]
  rw [dif_neg hne]
  split
  · rename_i t2 r2 heq
    rw [h] at heq
    cases heq
    rfl
  · rename_i r2 heq
    rw [h] at heq
    cases heq
  · rename_i heq
    rw [h] at heq
    cases heq

theorem tokenizeAux_skip {l r : List Char} (hne : l ≠ [])
    (h : nextTok l = some (none, r)) :
    tokenizeAux l = tokenizeAux r := by
  rw [tokenizeAux]
  rw [dif_neg hne]
  split
  · rename_i t2 r2 heq
    rw [h] at heq
    cases heq
  · rename_i r2 heq
    rw [h] at heq
    cases heq
    rfl
  · rename_i heq
    rw [h] at heq
    cases heq

theorem render_elem_head {y : Xml} (he : isElemNode y = true) :
    ∃ r2, renderChars y = '<' :: r2 := by
  cases y with
  | txt s => simp [isElemNode] at he
  | elem n as cs =>
    cases cs with
    | nil => exact ⟨_, rfl⟩
    | cons c cs' => exact ⟨_, rfl⟩

theorem noAdjTxt_tail {x : Xml} {xs : List Xml} (h : noAdjTxt (x :: xs) = true) :
    noAdjTxt xs = true := by
  cases x with
  | elem n as cs =>
    cases xs with
    | nil => rfl
    | cons y ys => simpa [noAdjTxt] using h
  | txt s =>
    cases xs with
    | nil => rfl
    | cons y ys =>
      cases y with
      | txt s2 => simp [noAdjTxt] at h
      | elem n as cs => simpa [noAdjTxt] using h

theorem noAdjTxt_head {s : List Char} {y : Xml} {xs : List Xml}
    (h : noAdjTxt (.txt s :: y :: xs) = true) : isElemNode y = true := by
  cases y with
  | txt s2 => simp [noAdjTxt] at h
  | elem n as cs => rfl

theorem wfXml_elem_parts {n : List Char} {as : List (List Char × List Char)} {cs : List Xml}
    (h : wfXml (.elem n as cs) = true) :
    validName n = true ∧ (as.all fun a => validName a.1 && validAttrVal a.2) = true ∧
    wfList cs = true ∧ noAdjTxt cs = true := by
  simp only [wfXml, Bool.and_eq_true] at h
  exact ⟨h.1.1.1, h.1.1.2, h.1.2, h.2⟩

mutual

theorem tokenize_render_node (t : Xml) (rest : List Char) (hw : wfXml t = true)
    (hg : isElemNode t = true ∨ rest = [] ∨ ∃ r2, rest = '<' :: r2) :
    tokenizeAux (renderChars t ++ rest) =
      (tokenizeAux rest).map (fun ts => toksNode t ++ ts) := by
  cases t with
  | txt s =>
    simp only [wfXml, validText, Bool.and_eq_true] at hw
    have hne : s ≠ [] := by simpa [List.isEmpty_iff] using hw.1
    have hrg : rest = [] ∨ ∃ r2, rest = '<' :: r2 := by
      rcases hg with hg | hg
      · simp [isElemNode] at hg
      · exact hg
    have hstep := @nextTok_text s rest hne (List.all_eq_true.mp hw.2) hrg
    rw [renderChars]
    rw [tokenizeAux_tok (by simp [hne]) hstep]
    cases htok : tokenizeAux rest <;> simp [htok, toksNode]
  | elem n as cs =>
    obtain ⟨hn, has, hwl, hadj⟩ := wfXml_elem_parts hw
    cases cs with
    | nil =>
      have hsh : renderChars (.elem n as []) ++ rest
          = '<' :: (n ++ renderAttrsChars as ++ '/' :: '>' :: rest) := by
        simp [renderChars]
      rw [hsh]
      rw [tokenizeAux_tok (by simp) (nextTok_selfTag hn has)]
      cases htok : tokenizeAux rest <;> simp [htok, toksNode]
    | cons c cs' =>
      have hsh : renderChars (.elem n as (c :: cs')) ++ rest
          = '<' :: (n ++ renderAttrsChars as ++ '>' ::
              (renderListChars (c :: cs') ++ ('<' :: '/' :: (n ++ '>' :: rest)))) := by
        simp [renderChars]
      rw [hsh]
      rw [tokenizeAux_tok (by simp) (nextTok_openTag hn has)]
      rw [tokenize_render_list (c :: cs') ('<' :: '/' :: (n ++ '>' :: rest)) hwl hadj
        (Or.inr ⟨_, rfl⟩)]
      rw [tokenizeAux_tok (by simp) (nextTok_closeTag hn)]
      cases htok : tokenizeAux rest <;> simp [htok, toksNode]

theorem tokenize_render_list (cs : List Xml) (rest : List Char)
    (hw : wfList cs = true) (ha : noAdjTxt cs = true)
    (hr : rest = [] ∨ ∃ r2, rest = '<' :: r2) :
    tokenizeAux (renderListChars cs ++ rest) =
      (tokenizeAux rest).map (fun ts => toksListNodes cs ++ ts) := by
  cases cs with
  | nil =>
    cases htok : tokenizeAux rest <;> simp [htok, renderListChars, toksListNodes]
  | cons x xs =>
    simp only [wfList, Bool.and_eq_true] at hw
    have hg : isElemNode x = true ∨ (renderListChars xs ++ rest) = [] ∨
        ∃ r2, renderListChars xs ++ rest = '<' :: r2 := by
      cases hx : x with
      | elem n as cs2 => exact Or.inl rfl
      | txt s =>
        cases hxs : xs with
        | nil =>
          rcases hr with rfl | ⟨r2, rfl⟩
          · exact Or.inr (Or.inl (by simp [renderListChars]))
          · exact Or.inr (Or.inr ⟨r2, by simp [renderListChars]⟩)
        | cons y ys =>
          have hy : isElemNode y = true := by
            rw [hx, hxs] at ha
            exact noAdjTxt_head ha
          obtain ⟨r2, hr2⟩ := render_elem_head hy
          refine Or.inr (Or.inr ⟨r2 ++ (renderListChars ys ++ rest), ?_⟩)
          simp [renderListChars, hr2]
    have hsh : renderListChars (x :: xs) ++ rest
        = renderChars x ++ (renderListChars xs ++ rest) := by
      simp [renderListChars]
    rw [hsh]
    rw [tokenize_render_node x (renderListChars xs ++ rest) hw.1 hg]
    rw [tokenize_render_list xs rest hw.2 (noAdjTxt_tail ha) hr]
    cases htok : tokenizeAux rest <;> simp [htok, toksListNodes]
end

/-!
## Builder lemmas

With enough fuel, the recursive-descent builder reconstructs exactly the
nodes whose token sequence it is given.
-/

/-- Is this token a closing tag? -/
theorem buildNodes_some_pos {g : Nat} {tail : List XTok} {out : List Xml × List XTok}
    (h : buildNodes g tail = some out) : 1 ≤ g := by
  cases g with
  | zero => exact absurd h (by simp [buildNodes])
  | succ g2 => omega

mutual

theorem buildNode_mono {f : Nat} {l : List XTok} {r : Xml × List XTok}
    (h : buildNode f l = some r) : buildNode (f + 1) l = some r := by
  match f, l with
  | 0, _ => simp [buildNode] at h
  | g+1, .chars s :: rest => exact h
  | g+1, .tagSelf n as :: rest => exact h
  | g+1, .tagOpen n as :: rest =>
    simp only [buildNode] at h ⊢
    split at h
    · rename_i cs n2 r2 heq
      rw [buildNodes_mono heq]
      exact h
    · exact absurd h (by simp)
  | g+1, [] => simp [buildNode] at h
  | g+1, .tagClose n :: rest => simp [buildNode] at h
termination_by (f, 0)

theorem buildNodes_mono {f : Nat} {l : List XTok} {r : List Xml × List XTok}
    (h : buildNodes f l = some r) : buildNodes (f + 1) l = some r := by
  match f, l with
  | 0, _ => simp [buildNodes] at h
  | g+1, [] => exact h
  | g+1, .tagClose n :: rest => exact h
  | g+1, .chars s :: rest =>
    simp only [buildNodes] at h ⊢
    split at h
    · rename_i x r1 heq
      rw [buildNode_mono heq]
      simp only []
      split at h
      · rename_i xs r2 heq2
        rw [buildNodes_mono heq2]
        exact h
      · exact absurd h (by simp)
    · exact absurd h (by simp)
  | g+1, .tagSelf n as :: rest =>
    simp only [buildNodes] at h ⊢
    split at h
    · rename_i x r1 heq
      rw [buildNode_mono heq]
      simp only []
      split at h
      · rename_i xs r2 heq2
        rw [buildNodes_mono heq2]
        exact h
      · exact absurd h (by simp)
    · exact absurd h (by simp)
  | g+1, .tagOpen n as :: rest =>
    simp only [buildNodes] at h ⊢
    split at h
    · rename_i x r1 heq
      rw [buildNode_mono heq]
      simp only []
      split at h
      · rename_i xs r2 heq2
        rw [buildNodes_mono heq2]
        exact h
      · exact absurd h (by simp)
    · exact absurd h (by simp)
termination_by (f, 1)

end

theorem buildNodes_mono_le {f g : Nat} {l : List XTok} {r : List Xml × List XTok}
    (hle : g ≤ f) (h : buildNodes g l = some r) : buildNodes f l = some r := by
  induction f with
  | zero =>
    have : g = 0 := by omega
    subst this
    exact h
  | succ f2 ih =>
    by_cases hgf : g = f2 + 1
    · subst hgf
      exact h
    · exact buildNodes_mono (ih (by omega))

theorem buildNode_mono_le {f g : Nat} {l : List XTok} {r : Xml × List XTok}
    (hle : g ≤ f) (h : buildNode g l = some r) : buildNode f l = some r := by
  induction f with
  | zero =>
    have : g = 0 := by omega
    subst this
    exact h
  | succ f2 ih =>
    by_cases hgf : g = f2 + 1
    · subst hgf
      exact h
    · exact buildNode_mono (ih (by omega))

theorem weightNode_pos (t : Xml) : 1 ≤ weightNode t := by
  cases t with
  | txt s => simp [weightNode]
  | elem n as cs =>
    cases cs with
    | nil => simp [weightNode]
    | cons c cs2 => simp [weightNode]

theorem toksNode_head (t : Xml) :
    ∃ tok tr, toksNode t = tok :: tr ∧ (∀ n, tok ≠ .tagClose n) := by
  cases t with
  | txt s => exact ⟨_, _, rfl, fun n h => by cases h⟩
  | elem n as cs =>
    cases cs with
    | nil => exact ⟨_, _, rfl, fun n2 h => by cases h⟩
    | cons c cs2 => exact ⟨_, _, rfl, fun n2 h => by cases h⟩

theorem buildNodes_cons_tok {f : Nat} {tok : XTok} {ts : List XTok}
    (h : ∀ n, tok ≠ .tagClose n) :
    buildNodes (f + 1) (tok :: ts) =
      (match buildNode f (tok :: ts) with
       | some (x, r) =>
         (match buildNodes f r with
          | some (xs, r2) => some (x :: xs, r2)
          | none => none)
       | none => none) := by
  cases tok with
  | tagOpen n as => rfl
  | tagSelf n as => rfl
  | chars s => rfl
  | tagClose n => exact absurd rfl (h n)

mutual

theorem buildNode_toks (t : Xml) (f : Nat) (rest : List XTok) (hf : weightNode t ≤ f) :
    buildNode f (toksNode t ++ rest) = some (t, rest) := by
  cases t with
  | txt s =>
    simp only [weightNode] at hf
    obtain ⟨f2, rfl⟩ : ∃ f2, f = f2 + 1 := ⟨f - 1, by omega⟩
    rfl
  | elem n as cs =>
    cases cs with
    | nil =>
      simp only [weightNode] at hf
      obtain ⟨f2, rfl⟩ : ∃ f2, f = f2 + 1 := ⟨f - 1, by omega⟩
      rfl
    | cons c cs2 =>
      simp only [weightNode] at hf
      obtain ⟨f2, rfl⟩ : ∃ f2, f = f2 + 1 := ⟨f - 1, by omega⟩
      have hsh : toksNode (.elem n as (c :: cs2)) ++ rest
          = .tagOpen n as :: (toksListNodes (c :: cs2) ++ (.tagClose n :: rest)) := by
        simp [toksNode]
      rw [hsh]
      simp only [buildNode]
      have hbase : buildNodes 1 (.tagClose n :: rest) = some ([], .tagClose n :: rest) := rfl
      have hrec := buildNodes_toks (c :: cs2) f2 1 (.tagClose n :: rest)
        ([], .tagClose n :: rest) hbase (by omega)
      rw [hrec]
      simp
termination_by sizeOf t

theorem buildNodes_toks (cs : List Xml) (f g : Nat) (tail : List XTok)
    (out : List Xml × List XTok) (h : buildNodes g tail = some out)
    (hf : g + weightList cs ≤ f) :
    buildNodes f (toksListNodes cs ++ tail) = some (cs ++ out.1, out.2) := by
  cases cs with
  | nil =>
    simp only [weightList] at hf
    simp only [toksListNodes, List.nil_append]
    have h2 := buildNodes_mono_le (g := g) (f := f) (by omega) h
    rw [h2]
  | cons x xs =>
    simp only [weightList] at hf
    have hg1 := buildNodes_some_pos h
    have hw1 := weightNode_pos x
    obtain ⟨f2, rfl⟩ : ∃ f2, f = f2 + 1 := ⟨f - 1, by omega⟩
    obtain ⟨tok, tr, htoks, hnc⟩ := toksNode_head x
    have hsh : toksListNodes (x :: xs) ++ tail
        = tok :: (tr ++ (toksListNodes xs ++ tail)) := by
      simp [toksListNodes, htoks]
    rw [hsh, buildNodes_cons_tok hnc]
    have hsh2 : tok :: (tr ++ (toksListNodes xs ++ tail))
        = toksNode x ++ (toksListNodes xs ++ tail) := by
      simp [htoks]
    rw [hsh2]
    rw [buildNode_toks x f2 (toksListNodes xs ++ tail) (by omega)]
    simp only []
    have hrec := buildNodes_toks xs f2 g tail out h (by omega)
    rw [hrec]
    simp
termination_by sizeOf cs

end


/-!
## Parsing a built envelope

A payload rendered from a well-formed element, wrapped in the fixed envelope
text, parses back to the expected document: the prologue is skipped, the
token stream is exactly that of `docForest`, and the builder reconstructs the
forest.  `parseSoapBody` then exposes the body element wrapping the payload.
-/

mutual

theorem weightNode_le (t : Xml) : weightNode t ≤ (toksNode t).length := by
  cases t with
  | txt s => simp [weightNode, toksNode]
  | elem n as cs =>
    cases cs with
    | nil => simp [weightNode, toksNode]
    | cons c cs2 =>
      have h := weightList_le (c :: cs2)
      simp only [weightNode, toksNode, List.length_cons, List.length_append]
      omega
termination_by sizeOf t

theorem weightList_le (cs : List Xml) : weightList cs ≤ (toksListNodes cs).length := by
  cases cs with
  | nil => simp [weightList, toksListNodes]
  | cons x xs =>
    have h1 := weightNode_le x
    have h2 := weightList_le xs
    simp only [weightList, toksListNodes, List.length_append]
    omega
termination_by sizeOf cs

end

/-- The XML declaration opening every built envelope. -/
def xmlProlog : List Char := "<?xml version=\"1.0\" encoding=\"UTF-8\"?>".toList

theorem envDoc_chars (sp : List Char) (t : Xml) :
    (envHead ++ String.mk (sp ++ renderChars t) ++ envTail).toList
      = xmlProlog ++ renderListChars (docForest sp t) := by
  show envHead.toList ++ (sp ++ renderChars t) ++ envTail.toList = _
  simp only [docForest, docBody, renderListChars, renderChars, renderAttrsChars,
    envName, envAttrs, bodyName, xmlProlog, List.append_assoc, List.append_nil,
    List.cons_append, List.nil_append]
  rfl

theorem wf_docForest {sp : List Char} {t : Xml} (hw : wfXml t = true)
    (ht : isElemNode t = true) (hsp : ∀ c ∈ sp, c ≠ '<') :
    wfList (docForest sp t) = true ∧ noAdjTxt (docForest sp t) = true := by
  obtain ⟨n', as', cs', rfl⟩ : ∃ n' as' cs', t = .elem n' as' cs' := by
    cases t with
    | txt s => simp [isElemNode] at ht
    | elem n' as' cs' => exact ⟨n', as', cs', rfl⟩
  have hall : sp.all (fun c => decide (c ≠ '<')) = true :=
    List.all_eq_true.mpr (fun c hc => by simpa using hsp c hc)
  have hsp' : validText ('\n' :: sp) = true := by
    simp only [validText, List.isEmpty_cons, Bool.not_false, Bool.true_and, List.all_cons,
      Bool.and_eq_true]
    exact ⟨by decide, hall⟩
  obtain ⟨hn, has2, hwl, hadj2⟩ := wfXml_elem_parts hw
  constructor
  · simp only [docForest, docBody, wfList, wfXml, noAdjTxt, Bool.and_eq_true]
    repeat' apply And.intro
    all_goals first
      | exact hsp'
      | exact hn
      | exact has2
      | exact hwl
      | exact hadj2
      | rfl
      | decide
  · rfl

theorem tokenize_envelope {sp : List Char} {t : Xml} (hw : wfXml t = true)
    (ht : isElemNode t = true) (hsp : ∀ c ∈ sp, c ≠ '<') :
    tokenizeAux ((envHead ++ String.mk (sp ++ renderChars t) ++ envTail).toList)
      = some (toksListNodes (docForest sp t)) := by
  obtain ⟨hwf, hadj⟩ := wf_docForest hw ht hsp
  rw [envDoc_chars]
  simp only [xmlProlog]
  have hne : ("<?xml version=\"1.0\" encoding=\"UTF-8\"?>".toList
      ++ renderListChars (docForest sp t)) ≠ [] := by
    intro h
    have h2 := congrArg List.length h
    rw [List.length_append] at h2
    simp at h2
  rw [tokenizeAux_skip hne nextTok_prolog]
  have h2 := tokenize_render_list (docForest sp t) [] hwf hadj (Or.inl rfl)
  rw [List.append_nil] at h2
  rw [h2, tokenizeAux_nil]
  simp


theorem parseChars_envelope {sp : List Char} {t : Xml} (hw : wfXml t = true)
    (ht : isElemNode t = true) (hsp : ∀ c ∈ sp, c ≠ '<') :
    parseChars ((envHead ++ String.mk (sp ++ renderChars t) ++ envTail).toList)
      = some (.elem envName envAttrs [.txt ['\n', ' ', ' '], docBody sp t, .txt ['\n']]) := by
  simp only [parseChars]
  rw [tokenize_envelope hw ht hsp]
  have hb : buildNodes ((toksListNodes (docForest sp t)).length + 1)
      (toksListNodes (docForest sp t)) = some (docForest sp t, []) := by
    have h := buildNodes_toks (docForest sp t) ((toksListNodes (docForest sp t)).length + 1)
      1 [] ([], []) rfl (by have := weightList_le (docForest sp t); omega)
    simpa using h
  simp only []
  rw [hb]
  simp [docForest, isElemNode]

theorem parseSoapBody_envelope_ok {sp : List Char} {t : Xml} (hw : wfXml t = true)
    (ht : isElemNode t = true) (hsp : ∀ c ∈ sp, c ≠ '<')
    (hnf : (localName (xmlName t) == "Fault".toList) = false) :
    parseSoapBody (envHead ++ String.mk (sp ++ renderChars t) ++ envTail)
      = .ok (docBody sp t) := by
  obtain ⟨n', as', cs', rfl⟩ : ∃ n' as' cs', t = .elem n' as' cs' := by
    cases t with
    | txt s => simp [isElemNode] at ht
    | elem n' as' cs' => exact ⟨n', as', cs', rfl⟩
  simp only [xmlName] at hnf
  simp only [parseSoapBody]
  rw [parseChars_envelope hw ht hsp]
  simp only [xmlName]
  rw [if_pos (show (localName envName == "Envelope".toList) = true from by decide)]
  have hbody : firstChildNamed
      (Xml.elem envName envAttrs
        [.txt ['\n', ' ', ' '], docBody sp (.elem n' as' cs'), .txt ['\n']])
      "Body".toList = some (docBody sp (.elem n' as' cs')) := rfl
  rw [hbody]
  simp only []
  have hfault : firstChildNamed (docBody sp (.elem n' as' cs')) "Fault".toList = none := by
    show List.find? (childPred "Fault".toList)
        [Xml.txt ('\n' :: sp), Xml.elem n' as' cs', Xml.txt ['\n', ' ', ' ']] = none
    have h1 : childPred ['F', 'a', 'u', 'l', 't'] (Xml.txt ('\n' :: sp)) = false := rfl
    have h2 : childPred ['F', 'a', 'u', 'l', 't'] (Xml.elem n' as' cs') = false := hnf
    have h3 : childPred ['F', 'a', 'u', 'l', 't'] (Xml.txt ['\n', ' ', ' ']) = false := rfl
    simp [List.find?, h1, h2, h3]
  rw [hfault]
  simp only []
  have hat : attrTruthy (docBody sp (.elem n' as' cs')) "Fault".toList = false := rfl
  rw [hat]
  simp

theorem parseSoapBody_envResponse_ok {t : Xml} (hw : wfXml t = true)
    (ht : isElemNode t = true)
    (hnf : (localName (xmlName t) == "Fault".toList) = false) :
    parseSoapBody (envHead ++ renderXml t ++ envTail) = .ok (docBody [] t) := by
  have h := @parseSoapBody_envelope_ok [] t hw ht (by intro c hc; cases hc) hnf
  simpa [renderXml] using h

theorem wf_faultTree {m : List Char} (hm : m ≠ []) (hmlt : ∀ c ∈ m, c ≠ '<') :
    wfXml (faultTree m) = true := by
  have hall : m.all (fun c => decide (c ≠ '<')) = true :=
    List.all_eq_true.mpr (fun c hc => by simpa using hmlt c hc)
  have hvt : validText m = true := by
    simp only [validText, Bool.and_eq_true]
    exact ⟨by simpa [List.isEmpty_iff] using hm, hall⟩
  simp only [faultTree, wfXml, wfList, noAdjTxt, Bool.and_eq_true]
  repeat' apply And.intro
  all_goals first
    | exact hvt
    | rfl
    | decide

theorem parseSoapBody_envResponse_fault {m : List Char} (hm : m ≠ [])
    (hmlt : ∀ c ∈ m, c ≠ '<') :
    parseSoapBody (envHead ++ renderXml (faultTree m) ++ envTail)
      = .error (.remoteFault (String.mk m)) := by
  have hw := wf_faultTree hm hmlt
  have h := @parseChars_envelope [] (faultTree m) hw rfl (by intro c hc; cases hc)
  have hm2 : m.isEmpty = false := by
    cases m with
    | nil => exact absurd rfl hm
    | cons c r => rfl
  simp only [parseSoapBody, renderXml]
  rw [show String.mk (renderChars (faultTree m))
      = String.mk ([] ++ renderChars (faultTree m)) from rfl]
  rw [h]
  simp only []
  rw [if_pos (show (localName (xmlName (Xml.elem envName envAttrs
      [Xml.txt ['\n', ' ', ' '], docBody [] (faultTree m), Xml.txt ['\n']]))
        == "Envelope".toList) = true from rfl)]
  rw [show firstChildNamed (Xml.elem envName envAttrs
      [Xml.txt ['\n', ' ', ' '], docBody [] (faultTree m), Xml.txt ['\n']]) "Body".toList
      = some (docBody [] (faultTree m)) from rfl]
  simp only []
  rw [show firstChildNamed (docBody [] (faultTree m)) "Fault".toList
      = some (faultTree m) from rfl]
  simp only []
  rw [show firstChildNamed (faultTree m) "faultstring".toList
      = some (Xml.elem "faultstring".toList [] [Xml.txt m]) from rfl]
  simp only []
  rw [show textContent (Xml.elem "faultstring".toList [] [Xml.txt m]) = m ++ [] from rfl]
  simp [hm2]


/-!
## Fuel-indexed evaluation of the traversal loops

The two breadth-first loops are defined by well-founded recursion, which the
kernel does not evaluate; these structurally recursive clones compute the
same result when given enough fuel, letting concrete runs be settled by
`decide`.
-/

/-- Fuel-indexed clone of `bfsLoop`. -/
def bfsLoopFuel (inv : Inventory) (dcRef dcNm : String) :
    Nat → List String → TraversalState → Option TraversalState
  | 0, _, _ => none
  | _+1, [], st => some st
  | g+1, f :: rest, st =>
    if f ∈ st.visitedFolders then bfsLoopFuel inv dcRef dcNm g rest st
    else
      let st1 : TraversalState :=
        { st with visitedFolders := f :: st.visitedFolders,
                  folderFetches := st.folderFetches ++ [f] }
      let next := processChildren dcRef dcNm (childrenOf inv f) rest st1
      bfsLoopFuel inv dcRef dcNm g next.1 next.2

theorem bfsLoopFuel_sound {inv : Inventory} {dcRef dcNm : String} (g : Nat)
    {queue : List String} {st out : TraversalState}
    (h : bfsLoopFuel inv dcRef dcNm g queue st = some out) :
    bfsLoop inv dcRef dcNm queue st = out := by
  induction g generalizing queue st with
  | zero => simp [bfsLoopFuel] at h
  | succ g ih =>
    cases queue with
    | nil =>
      rw [bfsLoop]
      simpa [bfsLoopFuel] using h
    | cons f rest =>
      rw [bfsLoop]
      by_cases hv : f ∈ st.visitedFolders
      · rw [dif_pos hv]
        exact ih (by simpa [bfsLoopFuel, hv] using h)
      · rw [dif_neg hv]
        exact ih (by simpa [bfsLoopFuel, hv] using h)

/-- Fuel-indexed clone of `axBfs`. -/
def axBfsFuel (inv : AxInventory) (maxResults mc : Nat) :
    Nat → List (String × String × String) → AxTravState → Option AxTravState
  | 0, _, _ => none
  | _+1, [], st => some st
  | g+1, entry :: rest, st =>
    if maxResults ≤ mc then some st
    else if entry.1 ∈ st.visitedFolders then axBfsFuel inv maxResults mc g rest st
    else
      let st1 : AxTravState :=
        { st with visitedFolders := entry.1 :: st.visitedFolders,
                  folderFetchCount := st.folderFetchCount + 1 }
      let children := axChildrenOf inv entry.1
      let folders := children.filter (fun id => strStartsWith id "group-")
      let vms := children.filter (fun id => strStartsWith id "vm-")
      let st2 := axAddVms vms st1
      axBfsFuel inv maxResults mc g
        (rest ++ folders.map (fun f2 => (f2, entry.2.1, entry.2.2))) st2

theorem axBfsFuel_sound {inv : AxInventory} {maxResults mc : Nat} (g : Nat)
    {queue : List (String × String × String)} {st out : AxTravState}
    (h : axBfsFuel inv maxResults mc g queue st = some out) :
    axBfs inv maxResults mc queue st = out := by
  induction g generalizing queue st with
  | zero => simp [axBfsFuel] at h
  | succ g ih =>
    cases queue with
    | nil =>
      rw [axBfs]
      simpa [axBfsFuel] using h
    | cons entry rest =>
      rw [axBfs]
      by_cases hm : maxResults ≤ mc
      · rw [if_pos hm]
        simpa [axBfsFuel, hm] using h
      · rw [if_neg hm]
        by_cases hv : entry.1 ∈ st.visitedFolders
        · rw [dif_pos hv]
          exact ih (by simpa [axBfsFuel, hm, hv] using h)
        · rw [dif_neg hv]
          exact ih (by simpa [axBfsFuel, hm, hv] using h)

/-- The traversal of the one-datacenter demo inventory: one folder fetch, one
discovered VM, attributed to `DC-A`. -/
theorem runTraversal_demoInv : runTraversal demoInv =
    ⟨["group-v1"], ["vm-1"], ["vm-1"], [("vm-1", "datacenter-1", "DC-A")], ["group-v1"]⟩ := by
  have h := @bfsLoopFuel_sound demoInv "datacenter-1" "DC-A" 3
    ["group-v1"] emptyTraversal
    ⟨["group-v1"], ["vm-1"], ["vm-1"], [("vm-1", "datacenter-1", "DC-A")], ["group-v1"]⟩
    (by decide)
  rw [runTraversal]
  rw [show datacenterRefs demoInv = ["datacenter-1"] from rfl]
  simp only [List.foldl]
  rw [show demoInv.dcVmFolder "datacenter-1" = some "group-v1" from rfl]
  simp only []
  rw [show (demoInv.dcName "datacenter-1").getD "datacenter-1" = "DC-A" from rfl]
  exact h

/-- The traversal of the two-datacenter axios demo inventory: both folders
fetched, the single VM recorded once. -/
theorem axBfs_axDemoInv : axBfs axDemoInv 10 0
    [("group-v1", "DC-A", "datacenter-1"), ("group-v2", "DC-B", "datacenter-2")]
    ⟨[], [], 0⟩ = ⟨["group-v2", "group-v1"], ["vm-100"], 2⟩ :=
  axBfsFuel_sound 3 (by decide)


/-!
## Helper lemmas for the claims
-/

theorem toLower_toLower (c : Char) : c.toLower.toLower = c.toLower := by
  unfold Char.toLower
  by_cases h : c.toNat ≥ 65 ∧ c.toNat ≤ 90
  · rw [if_pos h]
    have hvalid : Nat.isValidChar (c.toNat + 32) := Or.inl (by omega)
    have hval : (Char.ofNat (c.toNat + 32)).toNat = c.toNat + 32 := by
      unfold Char.ofNat
      rw [dif_pos hvalid]
      simp [Char.ofNatAux, Char.toNat, UInt32.toNat, BitVec.toNat_ofNatLt]
    simp only [hval]
    rw [if_neg (by omega)]
  · rw [if_neg h, if_neg h]

/-- The substring test used by the matchers agrees with the mathematical
notion of substring. -/
theorem listInfixOf_iff (needle hay : List Char) :
    listInfixOf needle hay = true ↔ ∃ s t, hay = s ++ needle ++ t := by
  unfold listInfixOf
  rw [List.any_eq_true]
  constructor
  · rintro ⟨t, ht, hp⟩
    have ht2 : t <:+ hay := (List.mem_tails _ _).mp ht
    have hp2 : needle <+: t := List.isPrefixOf_iff_prefix.mp hp
    obtain ⟨u, rfl⟩ := hp2
    obtain ⟨s, rfl⟩ := ht2
    exact ⟨s, u, by simp⟩
  · rintro ⟨s, t, rfl⟩
    refine ⟨needle ++ t, ?_, ?_⟩
    · exact (List.mem_tails _ _).mpr ⟨s, by simp⟩
    · exact List.isPrefixOf_iff_prefix.mpr ⟨t, rfl⟩

/-!
## The claims
-/

/-- Claim C1, as stated, is false: a 404 response is not turned into a
transport error — `sendSoapRequest` resolves with the body of the 404
response as a success. -/
theorem c1_counterexample :
    (sendSoapRequestOutcome none (.response ⟨404, [], "<html>not found</html>"⟩)).2
      = .ok "<html>not found</html>" := rfl

/-- Claim C1 (amended): `sendSoapRequest` never consults the HTTP status
code: every HTTP response — 200, 3xx, 404 or 500 alike — resolves
successfully with the raw response body, and only connection-level failures
(including the timeout path) reject. -/
theorem c1_status_ignored (cookie : Option String) (r : HttpResponse) (m : String) :
    (sendSoapRequestOutcome cookie (.response r)).2 = .ok r.body ∧
    (sendSoapRequestOutcome cookie (.netError m)).2 = .error (.connFailure m) :=
  ⟨rfl, rfl⟩

/-- Claim C2, as stated, is false: the `contains` mode of `searchVMByName`
is case-sensitive.  The query `"WEB"` is a case-insensitive substring of the
discovered name `"web-01"` (lowercasing both sides exhibits it), yet the
matcher rejects the pair. -/
theorem c2_counterexample :
    vmNameMatches .contains "WEB" "web-01" = false ∧
    listInfixOf (jsToLowerList "WEB") (jsToLowerList "web-01") = true := by
  constructor
  · decide
  · decide

/-- Claim C2 (amended): the matcher of `searchVMByName` selects, in `exact`
mode, exactly the names fully equal to the query and, in `contains` mode,
exactly the names having the query as a case-sensitive substring; on the
spec's all-lowercase example inventory the advertised selections are
unchanged. -/
theorem c2_match_modes :
    (∀ q n : String, vmNameMatches .exact q n = true ↔ n = q) ∧
    (∀ q n : String,
      vmNameMatches .contains q n = true ↔ ∃ s t, n.toList = s ++ q.toList ++ t) ∧
    ["web-01", "web-02", "db-01"].filter (vmNameMatches .contains "web")
      = ["web-01", "web-02"] ∧
    ["web-01", "web-02", "db-01"].filter (vmNameMatches .exact "web") = [] ∧
    ["web-01", "web-02", "db-01"].filter (vmNameMatches .exact "web-01") = ["web-01"] := by
  refine ⟨?_, ?_, by decide, by decide, by decide⟩
  · intro q n
    simp [vmNameMatches]
  · intro q n
    exact listInfixOf_iff q.toList n.toList

/-- The options of the demonstration `findVmsByName` run. -/
def axDemoOpts : AxOptions := ⟨"alpha", 10, true, true⟩

/-- Claim C3: `findVmsByName` violates single attribution.  On an inventory
with two datacenters and one VM (`vm-100`, living under `DC-A`), the
assembly cross-joins datacenters with matched VMs: the single VM is returned
twice, attributed once to each datacenter. -/
theorem c3_duplicate_attribution :
    (findVmsByName axDemoInv axDemoOpts).items.map
        (fun r => (r.find? (fun kv => kv.1 == "moRef"),
                   r.find? (fun kv => kv.1 == "datacenter")))
      = [(some ("moRef", .str "vm-100"), some ("datacenter", .dcObj "DC-A" "datacenter-1")),
         (some ("moRef", .str "vm-100"), some ("datacenter", .dcObj "DC-B" "datacenter-2"))] := by
  have hb := axBfs_axDemoInv
  show (axAssemble axDemoInv axDemoOpts (axBfs axDemoInv 10 0
      [("group-v1", "DC-A", "datacenter-1"), ("group-v2", "DC-B", "datacenter-2")]
      ⟨[], [], 0⟩)).items.map _ = _
  rw [hb]
  decide

/-- Claim C8, as stated, is false for the axios client: with the power-state
and identifier fields disabled, every record still carries the `powerState`,
`uuid` and `vmPathName` keys, present with the value `undefined`. -/
theorem c8_counterexample :
    (findVmsByName axDemoInv ⟨"alpha", 10, false, false⟩).items.map
        (fun r => r.filter (fun kv => kv.2 == JsVal.undef))
      = [[("powerState", .undef), ("uuid", .undef), ("vmPathName", .undef)],
         [("powerState", .undef), ("uuid", .undef), ("vmPathName", .undef)]] := by
  have hb := axBfs_axDemoInv
  show ((axAssemble axDemoInv ⟨"alpha", 10, false, false⟩ (axBfs axDemoInv 10 0
      [("group-v1", "DC-A", "datacenter-1"), ("group-v2", "DC-B", "datacenter-2")]
      ⟨[], [], 0⟩)).items.map _) = _
  rw [hb]
  decide


/-- An inventory with a nested folder: the first folder already contains a
matching VM, the second (fetched anyway) contains another. -/
def demoInv2 : Inventory where
  rootChildren := [⟨"datacenter-1", some "Datacenter"⟩]
  dcName := fun r => if r = "datacenter-1" then some "DC-A" else none
  dcVmFolder := fun r => if r = "datacenter-1" then some "group-v1" else none
  folderChildren :=
    [("group-v1", [⟨"group-v2", some "Folder"⟩, ⟨"vm-1", some "VirtualMachine"⟩]),
     ("group-v2", [⟨"vm-2", some "VirtualMachine"⟩])]
  vmName := fun r => if r = "vm-1" then some "web-01"
    else if r = "vm-2" then some "web-02" else none
  vmPowerState := fun _ => none
  vmUuid := fun _ => none
  vmPathName := fun _ => none

/-- The traversal of `demoInv2` fetches both folders and discovers both VMs. -/
theorem runTraversal_demoInv2 : runTraversal demoInv2 =
    ⟨["group-v2", "group-v1"], ["vm-2", "vm-1"], ["vm-1", "vm-2"],
     [("vm-1", "datacenter-1", "DC-A"), ("vm-2", "datacenter-1", "DC-A")],
     ["group-v1", "group-v2"]⟩ := by
  have h := @bfsLoopFuel_sound demoInv2 "datacenter-1" "DC-A" 4
    ["group-v1"] emptyTraversal
    ⟨["group-v2", "group-v1"], ["vm-2", "vm-1"], ["vm-1", "vm-2"],
      [("vm-1", "datacenter-1", "DC-A"), ("vm-2", "datacenter-1", "DC-A")],
      ["group-v1", "group-v2"]⟩
    (by decide)
  rw [runTraversal]
  rw [show datacenterRefs demoInv2 = ["datacenter-1"] from rfl]
  simp only [List.foldl]
  rw [show demoInv2.dcVmFolder "datacenter-1" = some "group-v1" from rfl]
  simp only []
  rw [show (demoInv2.dcName "datacenter-1").getD "datacenter-1" = "DC-A" from rfl]
  exact h

/-- A `contains` search for `web` capped at one result on the demo
inventory. -/
def pCap : SearchParams := ⟨"web", .contains, 1, false, false⟩

/-- Claim C5, as stated, is false in its halting part: with the cap already
reached from the first folder's VM, the traversal still fetches the second
folder — the cap never interrupts container fetches, which all happen before
any matching. -/
theorem c5_counterexample :
    (searchVMByName demoInv2 pCap).results.length = pCap.maxResults ∧
    (searchVMByName demoInv2 pCap).folderFetches = ["group-v1", "group-v2"] := by
  have h : searchVMByName demoInv2 pCap
      = searchAssemble demoInv2 pCap (runTraversal demoInv2) := rfl
  rw [h, runTraversal_demoInv2]
  exact ⟨rfl, rfl⟩

/-- Claim C5 (amended): the record list is truncated at the cap, and the
name-fetch loop checks the cap before each fetch (a cap of zero suppresses
all name fetches), but the folder traversal is independent of the cap: the
fetched-container log equals that of the unbounded traversal on every
inventory and every parameter set. -/
theorem c5_cap_behaviour :
    (∀ (inv : Inventory) (p : SearchParams),
      (searchVMByName inv p).results.length ≤ p.maxResults) ∧
    (∀ (inv : Inventory) (p : SearchParams),
      (searchVMByName inv p).folderFetches = (runTraversal inv).folderFetches) ∧
    (∀ (inv : Inventory) (p : SearchParams), p.maxResults = 0 →
      (searchVMByName inv p).nameFetches = 0) := by
  refine ⟨?_, ?_, ?_⟩
  · intro inv p
    simp only [searchVMByName, searchAssemble]
    by_cases hempty :
        (nameFetchLoop inv p (chunkArray 100 (runTraversal inv).discoveredVmList) [] 0).1.isEmpty
    · rw [if_pos hempty]
      simp
    · rw [if_neg hempty]
      exact List.length_take_le _ _
  · intro inv p
    simp only [searchVMByName, searchAssemble]
    by_cases hempty :
        (nameFetchLoop inv p (chunkArray 100 (runTraversal inv).discoveredVmList) [] 0).1.isEmpty
    · rw [if_pos hempty]
    · rw [if_neg hempty]
  · intro inv p hzero
    simp only [searchVMByName, searchAssemble]
    cases hch : chunkArray 100 (runTraversal inv).discoveredVmList with
    | nil => simp [nameFetchLoop]
    | cons c rest =>
      have hloop : nameFetchLoop inv p (c :: rest) [] 0 = ([], 0) := by
        simp [nameFetchLoop, hzero]
      simp [hloop]


/-- Witness for the amended claim C5 at a concrete zero cap. -/
theorem c5_witness :
    (⟨"web", .contains, 0, false, false⟩ : SearchParams).maxResults = 0 ∧
    (searchVMByName demoInv ⟨"web", .contains, 0, false, false⟩).nameFetches = 0 :=
  ⟨rfl, c5_cap_behaviour.2.2 demoInv _ rfl⟩

/-- Keys a record of `buildEntry` may carry when the optional fields are
disabled. -/
theorem buildEntry_keys {inv : Inventory} {p : SearchParams}
    {vmToDc : List (String × String × String)} {nameMatches : List (String × String)}
    {ref : String} (h1 : p.includePowerState = false) (h2 : p.includeUuidAndPath = false) :
    ∀ kv ∈ buildEntry inv p vmToDc nameMatches ref,
      kv.1 ∈ (["moRef", "datacenterMoRef", "datacenterName", "name"] : List String) := by
  intro kv hkv
  have hm := List.mem_map_of_mem Prod.fst hkv
  rcases hdc : vmToDc.find? (fun e => e.1 == ref) with - | e <;>
    rcases hnm : inv.vmName ref with - | n <;>
    rcases hfb : nameMatches.find? (fun e => e.1 == ref) with - | w <;>
    simp [buildEntry, h1, h2, hdc, hnm, hfb] at hm <;>
    simp only [List.mem_cons, List.mem_singleton, List.not_mem_nil] <;>
    tauto

/-- Claim C8 (amended): in the xml2js client, a search with the power-state
and identifier fields disabled returns records whose keys all lie in
`{moRef, datacenterMoRef, datacenterName, name}` — the disabled fields'
keys are absent, not present with a null value.  (The axios client instead
keeps the keys present with `undefined`, see the counterexample.) -/
theorem c8_fields_omitted (inv : Inventory) (p : SearchParams)
    (h1 : p.includePowerState = false) (h2 : p.includeUuidAndPath = false) :
    ∀ r ∈ (searchVMByName inv p).results, ∀ kv ∈ r,
      kv.1 ∈ (["moRef", "datacenterMoRef", "datacenterName", "name"] : List String) := by
  intro r hr kv hkv
  simp only [searchVMByName, searchAssemble] at hr
  by_cases hempty :
      (nameFetchLoop inv p (chunkArray 100 (runTraversal inv).discoveredVmList) [] 0).1.isEmpty
  · rw [if_pos hempty] at hr
    simp at hr
  · rw [if_neg hempty] at hr
    have hr2 := List.mem_of_mem_take hr
    rw [List.mem_join] at hr2
    obtain ⟨lr, hlr, hrl⟩ := hr2
    rw [List.mem_map] at hlr
    obtain ⟨chunk, -, rfl⟩ := hlr
    rw [List.mem_map] at hrl
    obtain ⟨x, -, rfl⟩ := hrl
    exact buildEntry_keys h1 h2 kv hkv

/-- Parameters of the demonstration `searchVMByName` run: `contains`, cap 5,
optional fields disabled. -/
def pDemo : SearchParams := ⟨"web", .contains, 5, false, false⟩

/-- The demonstration search run, fully evaluated. -/
theorem searchVMByName_demo : searchVMByName demoInv pDemo =
    { results := [[("moRef", "vm-1"), ("datacenterMoRef", "datacenter-1"),
                   ("datacenterName", "DC-A"), ("name", "web-01")]],
      folderFetches := ["group-v1"], nameFetches := 1, detailFetches := 1 } := by
  have h : searchVMByName demoInv pDemo
      = searchAssemble demoInv pDemo (runTraversal demoInv) := rfl
  rw [h, runTraversal_demoInv]
  decide

/-- Witness for the amended claim C8 on the demonstration run. -/
theorem c8_witness :
    (pDemo.includePowerState = false ∧ pDemo.includeUuidAndPath = false) ∧
    (("moRef", "vm-1") : String × String).1
      ∈ (["moRef", "datacenterMoRef", "datacenterName", "name"] : List String) :=
  ⟨⟨rfl, rfl⟩,
    c8_fields_omitted demoInv pDemo rfl rfl
      [("moRef", "vm-1"), ("datacenterMoRef", "datacenter-1"),
       ("datacenterName", "DC-A"), ("name", "web-01")]
      (by rw [searchVMByName_demo]; simp)
      ("moRef", "vm-1") (by simp)⟩


/-!
## Concrete client runs
-/

/-- The service content parsed from `scTree`. -/
def demoServiceContent : ServiceContent :=
  { aboutApiType := some "VirtualCenter".toList,
    aboutFullName := some "VMware vCenter Server".toList,
    aboutVersion := some "8.0.2".toList,
    aboutBuild := some "22617221".toList,
    sessionManager := "SessionManager".toList,
    rootFolder := some "group-d1".toList,
    propertyCollector := some "propertyCollector".toList }

/-- One `retrieveServiceContent` exchange against a 200 `scTree` response. -/
theorem retrieveSC_run (script : Nat → NetOutcome) (c c' : Option String) (k : Nat)
    (reqs : List SoapRequest) (cookies : List String)
    (hstep : script k = envResponse 200 cookies scTree)
    (hex : (match extractSessionCookie cookies with | some v => some v | none => c) = c') :
    retrieveServiceContentM script ⟨c, k, reqs⟩ =
      (⟨c', k + 1, reqs ++ [⟨"RetrieveServiceContent", c⟩]⟩, .ok demoServiceContent) := by
  have hsc : parseSoapBody (envHead ++ renderXml scTree ++ envTail) = .ok (docBody [] scTree) :=
    parseSoapBody_envResponse_ok (by decide) rfl (by decide)
  simp only [retrieveServiceContentM, sendSoapRequestM, hstep, envResponse,
    sendSoapRequestOutcome, sessionAfterResponse]
  rw [hex, hsc]
  simp only []
  rw [show (firstChildNamed (docBody [] scTree) "RetrieveServiceContentResponse".toList).bind
      (fun r => firstChildNamed r "returnval".toList)
      = some (Xml.elem "returnval".toList []
          [.elem "rootFolder".toList [("type".toList, "Folder".toList)] [.txt "group-d1".toList],
           .elem "propertyCollector".toList [("type".toList, "PropertyCollector".toList)]
             [.txt "propertyCollector".toList],
           .elem "sessionManager".toList [("type".toList, "SessionManager".toList)]
             [.txt "SessionManager".toList],
           .elem "about".toList []
             [.elem "apiType".toList [] [.txt "VirtualCenter".toList],
              .elem "fullName".toList [] [.txt "VMware vCenter Server".toList],
              .elem "version".toList [] [.txt "8.0.2".toList],
              .elem "build".toList [] [.txt "22617221".toList]]]) from rfl]
  simp only []
  congr 1

/-- One failed `login` exchange against a 500 fault response. -/
theorem loginM_fault_run (script : Nat → NetOutcome) (c c' : Option String) (k : Nat)
    (reqs : List SoapRequest) (cookies : List String) (m : List Char)
    (h1 : m ≠ []) (h2 : ∀ ch ∈ m, ch ≠ '<')
    (hstep : script k = envResponse 500 cookies (faultTree m))
    (hex : (match extractSessionCookie cookies with | some v => some v | none => c) = c') :
    loginM script ⟨c, k, reqs⟩ =
      (⟨c', k + 1, reqs ++ [⟨"Login", c⟩]⟩, .error (.remoteFault (String.mk m))) := by
  have hft : parseSoapBody (envHead ++ renderXml (faultTree m) ++ envTail)
      = .error (.remoteFault (String.mk m)) := parseSoapBody_envResponse_fault h1 h2
  simp only [loginM, sendSoapRequestM, hstep, envResponse, sendSoapRequestOutcome,
    sessionAfterResponse]
  rw [hex, hft]

/-- One successful `login` exchange against the session-setting `loginTree`
response of the healthy script. -/
theorem loginM_login_run (script : Nat → NetOutcome) (c : Option String) (k : Nat)
    (reqs : List SoapRequest)
    (hstep : script k
      = envResponse 200 ["vmware_soap_session=sess-1; Path=/; HttpOnly"] loginTree) :
    loginM script ⟨c, k, reqs⟩ =
      (⟨some "vmware_soap_session=sess-1", k + 1, reqs ++ [⟨"Login", c⟩]⟩, .ok ()) := by
  have hlt : parseSoapBody (envHead ++ renderXml loginTree ++ envTail)
      = .ok (docBody [] loginTree) := parseSoapBody_envResponse_ok (by decide) rfl (by decide)
  have hcook : extractSessionCookie ["vmware_soap_session=sess-1; Path=/; HttpOnly"]
      = some "vmware_soap_session=sess-1" := by decide
  simp only [loginM, sendSoapRequestM, hstep, envResponse, sendSoapRequestOutcome,
    sessionAfterResponse, hcook]
  rw [hlt]
  simp only []
  rfl

/-- The full failing `testConnection` run of claim C6: the fault message is
surfaced and the session cookie stays unset. -/
theorem testConnectionM_faultScript (m : List Char) (h1 : m ≠ [])
    (h2 : ∀ ch ∈ m, ch ≠ '<') :
    testConnectionM (faultScript m) freshClient =
      (⟨none, 2, [⟨"RetrieveServiceContent", none⟩, ⟨"Login", none⟩]⟩,
       .error (.remoteFault (String.mk m))) := by
  have hr := retrieveSC_run (faultScript m) none none 0 [] [] rfl rfl
  have hl := loginM_fault_run (faultScript m) none none (0 + 1)
    ([] ++ [⟨"RetrieveServiceContent", none⟩]) [] m h1 h2 rfl rfl
  rw [show freshClient = (⟨none, 0, []⟩ : ClientState) from rfl]
  simp only [testConnectionM, hr]
  rw [if_neg (by decide)]
  simp only [hl]
  rfl


/-- The failing `testConnection` run against a fault response that also sets
the session cookie: the cookie is extracted before the fault is raised. -/
theorem testConnectionM_faultCookieScript (m : List Char) (h1 : m ≠ [])
    (h2 : ∀ ch ∈ m, ch ≠ '<') :
    testConnectionM (faultCookieScript m) freshClient =
      (⟨some "vmware_soap_session=deadbeef", 2,
        [⟨"RetrieveServiceContent", none⟩, ⟨"Login", none⟩]⟩,
       .error (.remoteFault (String.mk m))) := by
  have hr := retrieveSC_run (faultCookieScript m) none none 0 [] [] rfl rfl
  have hl := loginM_fault_run (faultCookieScript m) none (some "vmware_soap_session=deadbeef")
    (0 + 1) ([] ++ [⟨"RetrieveServiceContent", none⟩])
    ["vmware_soap_session=deadbeef; Path=/"] m h1 h2 rfl rfl
  rw [show freshClient = (⟨none, 0, []⟩ : ClientState) from rfl]
  simp only [testConnectionM, hr]
  rw [if_neg (by decide)]
  simp only [hl]
  rfl

/-- Claim C6 (amended): a well-formed fault response to the authentication
call makes `testConnection` fail with a remote fault carrying exactly the
fault string, and when that response sets no session cookie the client's
session token stays unset. -/
theorem c6_fault_surfaced (m : List Char) (h1 : m ≠ []) (h2 : ∀ ch ∈ m, ch ≠ '<') :
    (testConnectionM (faultScript m) freshClient).2
      = .error (.remoteFault (String.mk m)) ∧
    (testConnectionM (faultScript m) freshClient).1.cookie = none := by
  rw [testConnectionM_faultScript m h1 h2]
  exact ⟨rfl, rfl⟩

/-- Witness for the amended claim C6 at a concrete fault message. -/
theorem c6_witness :
    ("Authentication failure".toList ≠ [] ∧
      ∀ ch ∈ "Authentication failure".toList, ch ≠ '<') ∧
    (testConnectionM (faultScript "Authentication failure".toList) freshClient).2
      = .error (.remoteFault (String.mk "Authentication failure".toList)) :=
  ⟨⟨by decide, by decide⟩, (c6_fault_surfaced _ (by decide) (by decide)).1⟩

/-- Claim C6, as stated, is false in its session part: a fault response that
also carries a `Set-Cookie` session header leaves the session token set,
because `sendSoapRequest` extracts the cookie before the body is parsed and
the fault raised. -/
theorem c6_counterexample :
    (testConnectionM (faultCookieScript "Authentication failure".toList) freshClient).2
      = .error (.remoteFault "Authentication failure") ∧
    (testConnectionM (faultCookieScript "Authentication failure".toList) freshClient).1.cookie
      = some "vmware_soap_session=deadbeef" := by
  rw [testConnectionM_faultCookieScript "Authentication failure".toList (by decide) (by decide)]
  exact ⟨rfl, rfl⟩

/-- Claim C9: the envelope round trip preserves the operation name.  A
payload whose normalized form renders a well-formed element (with optional
leading whitespace) parses back to a body node exposing the payload's root
element name as a key. -/
theorem c9_roundtrip (p : String) (sp : List Char) (t : Xml)
    (hens : ensureRetrievePropertiesExOptions p = String.mk (sp ++ renderChars t))
    (hw : wfXml t = true) (ht : isElemNode t = true)
    (hsp : ∀ c ∈ sp, c ≠ '<')
    (hnf : (localName (xmlName t) == "Fault".toList) = false) :
    parseSoapBody (buildEnvelope p) = .ok (docBody sp t) ∧
    bodyHasKey (docBody sp t) (localName (xmlName t)) = true := by
  obtain ⟨n', as', cs', rfl⟩ : ∃ n' as' cs', t = .elem n' as' cs' := by
    cases t with
    | txt s => simp [isElemNode] at ht
    | elem n' as' cs' => exact ⟨n', as', cs', rfl⟩
  constructor
  · simp only [buildEnvelope]
    rw [hens]
    exact parseSoapBody_envelope_ok hw ht hsp hnf
  · simp only [xmlName, bodyHasKey, firstChildNamed, docBody]
    have h1 : childPred (localName n') (Xml.txt ('\n' :: sp)) = false := rfl
    have h2 : childPred (localName n') (Xml.elem n' as' cs') = true := by
      show (localName n' == localName n') = true
      simp
    simp [List.find?, h1, h2]

set_option maxRecDepth 8000 in
/-- Witness for claim C9 on a concrete `RetrievePropertiesEx` payload. -/
theorem c9_witness :
    (ensureRetrievePropertiesExOptions rpeDemoPayload
        = String.mk ("    ".toList ++ renderChars rpeDemoTree)) ∧
    bodyHasKey (docBody "    ".toList rpeDemoTree) (localName (xmlName rpeDemoTree)) = true :=
  ⟨by decide,
   (c9_roundtrip rpeDemoPayload "    ".toList rpeDemoTree (by decide) (by decide) rfl
      (by decide) (by decide)).2⟩


/-!
## Session-cookie invariants (claim C10)
-/

theorem loginCount_append (a b : List SoapRequest) :
    loginCount (a ++ b) = loginCount a + loginCount b := by
  simp [loginCount, List.filter_append]

theorem loginCount_rsc (reqs : List SoapRequest) (c : Option String) :
    loginCount (reqs ++ [⟨"RetrieveServiceContent", c⟩]) = loginCount reqs := by
  rw [loginCount_append]
  have h : ("RetrieveServiceContent" == "Login") = false := by decide
  simp [loginCount, List.filter, h]

theorem sendM_cookie_isSome (script : Nat → NetOutcome) (st : ClientState) (a : String)
    (h : st.cookie.isSome = true) :
    (sendSoapRequestM script st a).1.cookie.isSome = true := by
  simp only [sendSoapRequestM]
  cases ho : script st.step with
  | response r =>
    simp only [sendSoapRequestOutcome, ho, sessionAfterResponse]
    cases extractSessionCookie r.setCookie with
    | some v => rfl
    | none => exact h
  | netError msg => simpa [sendSoapRequestOutcome, ho] using h

theorem retrieveSC_state (script : Nat → NetOutcome) (st : ClientState) :
    (retrieveServiceContentM script st).1
      = (sendSoapRequestM script st "RetrieveServiceContent").1 := by
  simp only [retrieveServiceContentM]
  repeat' split
  all_goals rfl

theorem loginM_state (script : Nat → NetOutcome) (st : ClientState) :
    (loginM script st).1 = (sendSoapRequestM script st "Login").1 := by
  simp only [loginM]
  repeat' split
  all_goals rfl

theorem scCheck_state (st : ClientState) (sc : ServiceContent) :
    (scCheck st sc).1 = st := by
  unfold scCheck
  split
  all_goals rfl

theorem retrieveSC_cookie_isSome (script : Nat → NetOutcome) (st : ClientState)
    (h : st.cookie.isSome = true) :
    (retrieveServiceContentM script st).1.cookie.isSome = true := by
  rw [retrieveSC_state]
  exact sendM_cookie_isSome script st _ h

theorem retrieveSC_loginCount (script : Nat → NetOutcome) (st : ClientState) :
    loginCount ((retrieveServiceContentM script st).1.requests) = loginCount st.requests := by
  rw [retrieveSC_state]
  exact loginCount_rsc st.requests st.cookie

/-- The session phase issues no login when a cookie is already held. -/
theorem searchSessionPhase_noLogin (script : Nat → NetOutcome) (st : ClientState)
    (hsome : st.cookie.isSome = true) :
    loginCount ((searchSessionPhase script st).1.requests) = loginCount st.requests := by
  simp only [searchSessionPhase]
  cases hr : (retrieveServiceContentM script st).2 with
  | error e =>
    simp only []
    exact retrieveSC_loginCount script st
  | ok ic =>
    simp only []
    by_cases hse : ic.sessionManager.isEmpty
    · rw [if_pos hse]
      exact retrieveSC_loginCount script st
    · rw [if_neg hse]
      have hcs := retrieveSC_cookie_isSome script st hsome
      obtain ⟨cv, hcv⟩ := Option.isSome_iff_exists.mp hcs
      rw [if_neg (by rw [hcv]; simp)]
      simp only []
      rw [if_pos hcs]
      cases hr2 : (retrieveServiceContentM script (retrieveServiceContentM script st).1).2 with
      | error e =>
        simp only []
        rw [retrieveSC_loginCount]
        exact retrieveSC_loginCount script st
      | ok sc =>
        simp only []
        rw [scCheck_state]
        rw [retrieveSC_loginCount]
        exact retrieveSC_loginCount script st

/-- The fresh-client session phase of the healthy script: one login, cookie
set, service content delivered. -/
theorem searchSessionPhase_fresh :
    searchSessionPhase healthyScript freshClient =
      (⟨some "vmware_soap_session=sess-1", 3,
        [⟨"RetrieveServiceContent", none⟩, ⟨"Login", none⟩,
         ⟨"RetrieveServiceContent", some "vmware_soap_session=sess-1"⟩]⟩,
       .ok demoServiceContent) := by
  have hr1 := retrieveSC_run healthyScript none none 0 [] [] rfl rfl
  have hl := loginM_login_run healthyScript none (0 + 1)
    ([] ++ [⟨"RetrieveServiceContent", none⟩]) rfl
  have hr2 := retrieveSC_run healthyScript (some "vmware_soap_session=sess-1")
    (some "vmware_soap_session=sess-1") (0 + 1 + 1)
    (([] ++ [⟨"RetrieveServiceContent", none⟩]) ++ [⟨"Login", none⟩]) [] rfl rfl
  rw [show freshClient = (⟨none, 0, []⟩ : ClientState) from rfl]
  simp only [searchSessionPhase, hr1]
  rw [if_neg (by decide)]
  rw [if_pos (by rfl)]
  simp only [hl]
  rw [if_pos (by rfl)]
  simp only [hr2]
  rw [scCheck]
  rw [if_neg (by decide)]
  rfl

/-- The warm session phase of the healthy script: no login, both requests
carry the held cookie. -/
theorem searchSessionPhase_warm :
    searchSessionPhase healthyScript ⟨some "vmware_soap_session=sess-1", 3, []⟩ =
      (⟨some "vmware_soap_session=sess-1", 5,
        [⟨"RetrieveServiceContent", some "vmware_soap_session=sess-1"⟩,
         ⟨"RetrieveServiceContent", some "vmware_soap_session=sess-1"⟩]⟩,
       .ok demoServiceContent) := by
  have hr1 := retrieveSC_run healthyScript (some "vmware_soap_session=sess-1")
    (some "vmware_soap_session=sess-1") 3 [] [] rfl rfl
  have hr2 := retrieveSC_run healthyScript (some "vmware_soap_session=sess-1")
    (some "vmware_soap_session=sess-1") (3 + 1)
    ([] ++ [⟨"RetrieveServiceContent", some "vmware_soap_session=sess-1"⟩]) [] rfl rfl
  simp only [searchSessionPhase, hr1]
  rw [if_neg (by decide)]
  rw [if_neg (by decide)]
  simp only []
  rw [if_pos (by rfl)]
  simp only [hr2]
  rw [scCheck]
  rw [if_neg (by decide)]
  rfl

/-- Claim C10: the session cookie, once set, is never cleared — each
response either leaves it unchanged or overwrites it with the newly
extracted value; every request carries the cookie held at send time; the
session phase logs in only when no cookie is held, so a warm client reuses
its session, while a fresh client against the healthy script logs in exactly
once and ends up holding the extracted cookie. -/
theorem c10_session_reuse :
    (∀ (c : Option String) (r : HttpResponse), c.isSome = true →
      (sessionAfterResponse c r).isSome = true) ∧
    (∀ (c : Option String) (r : HttpResponse),
      sessionAfterResponse c r = c ∨
      ∃ v, extractSessionCookie r.setCookie = some v ∧ sessionAfterResponse c r = some v) ∧
    (∀ (script : Nat → NetOutcome) (st : ClientState) (a : String),
      (sendSoapRequestM script st a).1.requests = st.requests ++ [⟨a, st.cookie⟩]) ∧
    (∀ (script : Nat → NetOutcome) (st : ClientState), st.cookie.isSome = true →
      loginCount ((searchSessionPhase script st).1.requests) = loginCount st.requests) ∧
    loginCount ((searchSessionPhase healthyScript freshClient).1.requests) = 1 ∧
    (searchSessionPhase healthyScript freshClient).1.cookie
      = some "vmware_soap_session=sess-1" ∧
    (searchSessionPhase healthyScript
        ⟨some "vmware_soap_session=sess-1", 3, []⟩).1.requests
      = [⟨"RetrieveServiceContent", some "vmware_soap_session=sess-1"⟩,
         ⟨"RetrieveServiceContent", some "vmware_soap_session=sess-1"⟩] := by
  refine ⟨?_, ?_, fun _ _ _ => rfl, searchSessionPhase_noLogin, ?_, ?_, ?_⟩
  · intro c r h
    simp only [sessionAfterResponse]
    cases extractSessionCookie r.setCookie with
    | some v => rfl
    | none => exact h
  · intro c r
    simp only [sessionAfterResponse]
    cases hx : extractSessionCookie r.setCookie with
    | some v => exact Or.inr ⟨v, rfl, rfl⟩
    | none => exact Or.inl rfl
  · rw [searchSessionPhase_fresh]
    decide
  · rw [searchSessionPhase_fresh]
  · rw [searchSessionPhase_warm]

/-- Witness for claim C10: the warm client's session phase adds no login. -/
theorem c10_witness :
    ((⟨some "vmware_soap_session=sess-1", 3, []⟩ : ClientState).cookie.isSome = true) ∧
    loginCount ((searchSessionPhase healthyScript
        ⟨some "vmware_soap_session=sess-1", 3, []⟩).1.requests)
      = loginCount ([] : List SoapRequest) :=
  ⟨rfl, c10_session_reuse.2.2.2.1 healthyScript _ rfl⟩


/-!
## Traversal invariants (claim C4)
-/

theorem nodup_snoc {α : Type} {l : List α} {a : α} (h : l.Nodup) (ha : a ∉ l) :
    (l ++ [a]).Nodup := by
  rw [List.nodup_append]
  exact ⟨h, List.nodup_singleton a, by simpa [List.disjoint_singleton] using ha⟩

/-- The state invariant of the shared traversal: fetched folders are
pairwise distinct and all marked visited; discovered VMs are pairwise
distinct and all marked visited. -/
def travInv (st : TraversalState) : Prop :=
  st.folderFetches.Nodup ∧ (∀ f ∈ st.folderFetches, f ∈ st.visitedFolders) ∧
  st.discoveredVmList.Nodup ∧ (∀ v ∈ st.discoveredVmList, v ∈ st.visitedVMs)

theorem processChildren_folderFetches (dcRef dcNm : String) (children : List ValEntry)
    (queue : List String) (st : TraversalState) :
    (processChildren dcRef dcNm children queue st).2.folderFetches = st.folderFetches := by
  induction children generalizing queue st with
  | nil => rfl
  | cons e rest ih =>
    simp only [processChildren]
    cases classifyChild e with
    | folder => exact ih _ _
    | vm =>
      by_cases h : e.moRef ∈ st.visitedVMs
      · simp only [if_pos h]
        exact ih _ _
      · simp only [if_neg h]
        exact ih _ _
    | other => exact ih _ _

theorem processChildren_inv (dcRef dcNm : String) (children : List ValEntry)
    (queue : List String) (st : TraversalState) (h : travInv st) :
    travInv (processChildren dcRef dcNm children queue st).2 := by
  induction children generalizing queue st with
  | nil => exact h
  | cons e rest ih =>
    simp only [processChildren]
    cases classifyChild e with
    | folder => exact ih _ _ h
    | vm =>
      by_cases hv : e.moRef ∈ st.visitedVMs
      · simp only [if_pos hv]
        exact ih _ _ h
      · simp only [if_neg hv]
        refine ih _ _ ?_
        obtain ⟨h1, h2, h3, h4⟩ := h
        refine ⟨h1, h2, ?_, ?_⟩
        · exact nodup_snoc h3 (fun hm => hv (h4 _ hm))
        · intro v hv2
          rcases List.mem_append.mp hv2 with hv2 | hv2
          · exact List.mem_cons_of_mem _ (h4 _ hv2)
          · simp at hv2
            subst hv2
            exact List.mem_cons_self _ _
    | other => exact ih _ _ h

theorem bfsLoop_inv (inv : Inventory) (dcRef dcNm : String) (queue : List String)
    (st : TraversalState) :
    travInv st → travInv (bfsLoop inv dcRef dcNm queue st) := by
  induction queue, st using bfsLoop.induct inv dcRef dcNm with
  | case1 st =>
    intro h
    rw [bfsLoop]
    exact h
  | case2 st f rest hv ih =>
    intro h
    rw [bfsLoop]
    rw [dif_pos hv]
    exact ih h
  | case3 st f rest hv st1 next ih =>
    intro h
    rw [bfsLoop]
    rw [dif_neg hv]
    refine ih ?_
    apply processChildren_inv
    obtain ⟨h1, h2, h3, h4⟩ := h
    refine ⟨?_, ?_, h3, h4⟩
    · exact nodup_snoc h1 (fun hm => hv (h2 _ hm))
    · intro f2 hf2
      rcases List.mem_append.mp hf2 with hf2 | hf2
      · exact List.mem_cons_of_mem _ (h2 _ hf2)
      · simp at hf2
        subst hf2
        exact List.mem_cons_self _ _

theorem foldTrav_inv (inv : Inventory) (dcs : List String) (st : TraversalState)
    (h : travInv st) :
    travInv (dcs.foldl (fun st dc =>
      match inv.dcVmFolder dc with
      | none => st
      | some vmFolder => bfsLoop inv dc ((inv.dcName dc).getD dc) [vmFolder] st) st) := by
  induction dcs generalizing st with
  | nil => exact h
  | cons dc rest ih =>
    simp only [List.foldl]
    cases hf : inv.dcVmFolder dc with
    | none => exact ih _ h
    | some vf => exact ih _ (bfsLoop_inv inv dc _ [vf] st h)

theorem runTraversal_inv (inv : Inventory) : travInv (runTraversal inv) := by
  rw [runTraversal]
  exact foldTrav_inv inv (datacenterRefs inv) emptyTraversal
    ⟨List.nodup_nil, by simp [emptyTraversal], List.nodup_nil, by simp [emptyTraversal]⟩


theorem axAddVms_fetchCount (vms : List String) (st : AxTravState) :
    (axAddVms vms st).folderFetchCount = st.folderFetchCount := by
  induction vms generalizing st with
  | nil => rfl
  | cons vm rest ih =>
    simp only [axAddVms]
    by_cases h : vm ∈ st.visitedVMs
    · simp only [if_pos h]
      exact ih st
    · simp only [if_neg h]
      exact ih _

theorem axAddVms_nodup (vms : List String) (st : AxTravState)
    (h : st.visitedVMs.Nodup) : (axAddVms vms st).visitedVMs.Nodup := by
  induction vms generalizing st with
  | nil => exact h
  | cons vm rest ih =>
    simp only [axAddVms]
    by_cases hv : vm ∈ st.visitedVMs
    · simp only [if_pos hv]
      exact ih st h
    · simp only [if_neg hv]
      exact ih _ (nodup_snoc h hv)

/-- The state invariant of the axios traversal: recorded VMs and visited
folders are pairwise distinct, and each fetch coincided with marking one
folder visited. -/
def axInv (st : AxTravState) : Prop :=
  st.visitedVMs.Nodup ∧ st.visitedFolders.Nodup ∧
  st.folderFetchCount = st.visitedFolders.length

theorem axAddVms_inv (vms : List String) (st : AxTravState) (h : axInv st) :
    axInv (axAddVms vms st) :=
  ⟨axAddVms_nodup _ _ h.1,
   by rw [axAddVms_visitedFolders]; exact h.2.1,
   by rw [axAddVms_fetchCount, axAddVms_visitedFolders]; exact h.2.2⟩

theorem axBfs_inv (inv : AxInventory) (maxResults mc : Nat)
    (queue : List (String × String × String)) (st : AxTravState) :
    axInv st → axInv (axBfs inv maxResults mc queue st) := by
  induction queue, st using axBfs.induct inv maxResults mc with
  | case1 st =>
    intro h
    rw [axBfs]
    exact h
  | case2 st entry rest hmc =>
    intro h
    rw [axBfs]
    rw [if_pos hmc]
    exact h
  | case3 st entry rest hmc hv ih =>
    intro h
    rw [axBfs]
    rw [if_neg hmc, dif_pos hv]
    exact ih h
  | case4 st entry rest hmc hv st1 children folders vms st2 ih =>
    intro h
    rw [axBfs]
    rw [if_neg hmc, dif_neg hv]
    refine ih ?_
    apply axAddVms_inv
    obtain ⟨h1, h2, h3⟩ := h
    exact ⟨h1, List.nodup_cons.mpr ⟨hv, h2⟩, by simp [h3]⟩

/-- Claim C4: on every inventory — cyclic or multiply-linked container
graphs included, since the inventory maps are unconstrained — the shared
traversal fetches pairwise-distinct folders and discovers pairwise-distinct
VMs, and the axios loop likewise records each VM once and performs exactly
one fetch per distinct visited folder.  Termination is inherent: both loops
are total functions of the model. -/
theorem c4_traversal_invariants :
    (∀ inv : Inventory, (runTraversal inv).folderFetches.Nodup ∧
      (runTraversal inv).discoveredVmList.Nodup) ∧
    (∀ (inv : AxInventory) (maxResults : Nat)
        (queue : List (String × String × String)),
      (axBfs inv maxResults 0 queue ⟨[], [], 0⟩).visitedVMs.Nodup ∧
      (axBfs inv maxResults 0 queue ⟨[], [], 0⟩).visitedFolders.Nodup ∧
      (axBfs inv maxResults 0 queue ⟨[], [], 0⟩).folderFetchCount
        = (axBfs inv maxResults 0 queue ⟨[], [], 0⟩).visitedFolders.length) := by
  constructor
  · intro inv
    obtain ⟨h1, -, h3, -⟩ := runTraversal_inv inv
    exact ⟨h1, h3⟩
  · intro inv mr q
    exact axBfs_inv inv mr 0 q ⟨[], [], 0⟩ ⟨List.nodup_nil, List.nodup_nil, rfl⟩


/-!
## Endpoint idempotence (claim C7)
-/

theorem toNat_ofNat_valid {n : Nat} (h : Nat.isValidChar n) : (Char.ofNat n).toNat = n := by
  unfold Char.ofNat
  rw [dif_pos h]
  simp [Char.ofNatAux, Char.toNat, UInt32.toNat, BitVec.toNat_ofNatLt]

theorem toLower_eq_or (c : Char) :
    c.toLower = c ∨ (97 ≤ c.toLower.toNat ∧ c.toLower.toNat ≤ 122) := by
  unfold Char.toLower
  by_cases h : c.toNat ≥ 65 ∧ c.toNat ≤ 90
  · rw [if_pos h]
    right
    rw [toNat_ofNat_valid (Or.inl (by omega))]
    omega
  · rw [if_neg h]
    left
    rfl

theorem toLower_ne {c d : Char} (hc : c ≠ d) (hd : d.toNat < 97) : c.toLower ≠ d := by
  rcases toLower_eq_or c with h | ⟨h1, h2⟩
  · rw [h]
    exact hc
  · intro he
    rw [he] at h1
    omega

theorem map_toLower_idem (l : List Char) :
    (l.map Char.toLower).map Char.toLower = l.map Char.toLower := by
  rw [List.map_map]
  apply List.map_congr_left
  intro c _
  exact toLower_toLower c

theorem drop_takeWhile_length (p : Char → Bool) (l : List Char) :
    l.drop (l.takeWhile p).length = l.dropWhile p := by
  induction l with
  | nil => rfl
  | cons c rest ih =>
    by_cases h : p c = true
    · simp [List.takeWhile_cons, List.dropWhile_cons, h, ih]
    · simp only [Bool.not_eq_true] at h
      simp [List.takeWhile_cons, List.dropWhile_cons, h]

theorem splitUserinfo_no_at {a : List Char} (h : ∀ c ∈ a, c ≠ '@') :
    splitUserinfo a = (none, a) := by
  have hall : ∀ c ∈ a.reverse, (fun ch => decide (ch ≠ '@')) c = true := by
    intro c hc
    simpa using h c (List.mem_reverse.mp hc)
  unfold splitUserinfo
  rw [List.dropWhile_eq_nil_iff.mpr (by intro c hc; simpa using hall c hc)]
  rw [List.takeWhile_eq_self_iff.mpr hall]
  simp

theorem splitUserinfo_at {u0 b : List Char} (hb : ∀ c ∈ b, c ≠ '@') :
    splitUserinfo (u0 ++ '@' :: b) = (some u0, b) := by
  have hall : ∀ c ∈ b.reverse, (fun ch => decide (ch ≠ '@')) c = true := by
    intro c hc
    simpa using hb c (List.mem_reverse.mp hc)
  have hsh : (u0 ++ '@' :: b).reverse = b.reverse ++ '@' :: u0.reverse := by
    simp
  unfold splitUserinfo
  rw [hsh]
  rw [takeWhile_append_all hall, dropWhile_append_all hall]
  simp [List.takeWhile_cons, List.dropWhile_cons]


theorem dropWhile_nil_or_head (p : Char → Bool) (l : List Char) :
    l.dropWhile p = [] ∨ ∃ c t, l.dropWhile p = c :: t ∧ p c = false := by
  induction l with
  | nil => exact Or.inl rfl
  | cons c rest ih =>
    by_cases h : p c = true
    · simpa [List.dropWhile_cons, h] using ih
    · simp only [Bool.not_eq_true] at h
      exact Or.inr ⟨c, rest, by simp [List.dropWhile_cons, h], h⟩

theorem parsePort_round {l p : List Char} (h : parsePort l = some p) :
    parsePort (if p.isEmpty then [] else ':' :: p) = some p ∧
    ∀ c ∈ p, c.isDigit = true := by
  unfold parsePort at h
  split at h
  · cases h
    exact ⟨rfl, by simp⟩
  · rename_i digits
    split at h
    · rename_i hdig
      split at h
      · cases h
        exact ⟨rfl, by simp⟩
      · rename_i hdne
        simp only [] at h
        split at h
        · cases h
          exact ⟨rfl, by simp⟩
        · rename_i hstr443
          split at h
          · rename_i hstrnil
            cases h
            exact ⟨by decide, by decide⟩
          · rename_i hstrne
            cases h
            have hsub : ∀ c ∈ digits.dropWhile (fun c => c = '0'), c ∈ digits :=
              fun c hc => (List.dropWhile_sublist _).mem hc
            have hdigall : ∀ c ∈ digits.dropWhile (fun c => c = '0'), c.isDigit = true :=
              fun c hc => List.all_eq_true.mp hdig c (hsub c hc)
            constructor
            · have hne2 : (digits.dropWhile (fun c => c = '0')).isEmpty = false := by
                cases hd : digits.dropWhile (fun c => c = '0') with
                | nil => exact absurd hd hstrne
                | cons c t => rfl
              rw [if_neg (by simp [hne2])]
              unfold parsePort
              simp only []
              rw [if_pos (List.all_eq_true.mpr hdigall)]
              rw [if_neg hstrne]
              have hidem : (digits.dropWhile (fun c => c = '0')).dropWhile (fun c => c = '0')
                  = digits.dropWhile (fun c => c = '0') := by
                rcases dropWhile_nil_or_head (fun c => decide (c = '0')) digits with hn | ⟨c, t, hct, hpc⟩
                · rw [hn]
                  rfl
                · rw [hct]
                  simp [List.dropWhile_cons, hpc]
              rw [hidem]
              rw [if_neg hstr443, if_neg hstrne]
            · exact hdigall
    · cases h
  · cases h

theorem splitUserinfo_snd (a : List Char) :
    (splitUserinfo a).2 = (a.reverse.takeWhile (fun c => c ≠ '@')).reverse := by
  unfold splitUserinfo
  split
  all_goals rfl

theorem splitUserinfo_fst_mem {a ui0 : List Char}
    (h : (splitUserinfo a).1 = some ui0) : ∀ c ∈ ui0, c ∈ a := by
  unfold splitUserinfo at h
  split at h
  · rename_i revUi heq
    simp only at h
    cases h
    intro c hc
    have h1 : c ∈ '@' :: revUi.reverse.reverse := by
      simp only [List.reverse_reverse]
      exact List.mem_cons_of_mem _ (by simpa using hc)
    rw [List.reverse_reverse] at h1
    have h2 : c ∈ a.reverse.dropWhile (fun ch => ch ≠ '@') := by
      rw [heq]
      simpa using h1
    exact List.mem_reverse.mp ((List.dropWhile_sublist _).mem h2)
  · simp at h


/-- Properties of every URL the parser accepts, as needed for re-parsing its
serialization. -/
theorem parseUrl_shape {l : List Char} {u0 : UrlModel} (h : parseUrl l = some u0) :
    u0.host ≠ [] ∧
    u0.host.map Char.toLower = u0.host ∧
    (∀ c ∈ u0.host, c ≠ '/' ∧ c ≠ '?' ∧ c ≠ '#' ∧ c ≠ ':' ∧ c ≠ '@') ∧
    (∀ ui0, u0.userinfo = some ui0 → ∀ c ∈ ui0, c ≠ '/' ∧ c ≠ '?' ∧ c ≠ '#') ∧
    parsePort (if u0.port.isEmpty then [] else ':' :: u0.port) = some u0.port ∧
    (∀ c ∈ u0.port, c.isDigit = true) := by
  simp only [parseUrl] at h
  split at h
  · cases h
  · split at h
    all_goals try cases h
    rename_i r heq
    rcases hsp : splitUserinfo
        (r.takeWhile (fun c => decide (c ≠ '/') && decide (c ≠ '?') && decide (c ≠ '#')))
      with ⟨ui, hostport⟩
    rw [hsp] at h
    simp only [] at h
    split at h
    · cases h
    · rename_i hhost
      split at h
      · cases h
      · rename_i port hport
        cases h
        have hautmem : ∀ c ∈ hostport,
            c ≠ '/' ∧ c ≠ '?' ∧ c ≠ '#' ∧ c ≠ '@' := by
          intro c hc
          have hc2 : c ∈ (splitUserinfo
              (r.takeWhile (fun ch => decide (ch ≠ '/') && decide (ch ≠ '?')
                && decide (ch ≠ '#')))).2 := by
            rw [hsp]
            exact hc
          rw [splitUserinfo_snd] at hc2
          rw [List.mem_reverse] at hc2
          have hne : c ≠ '@' := by
            have := List.mem_takeWhile_imp hc2
            simpa using this
          have hmem : c ∈ r.takeWhile (fun ch => decide (ch ≠ '/') && decide (ch ≠ '?')
              && decide (ch ≠ '#')) := by
            have := (List.takeWhile_sublist _).mem hc2
            exact List.mem_reverse.mp this
          have hp := List.mem_takeWhile_imp hmem
          simp only [Bool.and_eq_true, decide_eq_true_eq] at hp
          exact ⟨hp.1.1, hp.1.2, hp.2, hne⟩
        refine ⟨?_, map_toLower_idem _, ?_, ?_, ?_, ?_⟩
        · simpa using hhost
        · intro c hc
          rw [List.mem_map] at hc
          obtain ⟨c0, hc0, rfl⟩ := hc
          have hcol : c0 ≠ ':' := by
            have := List.mem_takeWhile_imp hc0
            simpa using this
          have hmem : c0 ∈ hostport := (List.takeWhile_sublist _).mem hc0
          obtain ⟨h1, h2, h3, h4⟩ := hautmem c0 hmem
          exact ⟨toLower_ne h1 (by decide), toLower_ne h2 (by decide),
            toLower_ne h3 (by decide), toLower_ne hcol (by decide),
            toLower_ne h4 (by decide)⟩
        · intro ui0 hui c hc
          have hmem := splitUserinfo_fst_mem (a :=
            r.takeWhile (fun ch => decide (ch ≠ '/') && decide (ch ≠ '?')
              && decide (ch ≠ '#'))) (by rw [hsp]; exact hui) c hc
          have hp := List.mem_takeWhile_imp hmem
          simp only [Bool.and_eq_true, decide_eq_true_eq] at hp
          exact ⟨hp.1.1, hp.1.2, hp.2⟩
        · exact (parsePort_round hport).1
        · exact (parsePort_round hport).2


theorem digit_ne_special {d : Char} (hd : d.isDigit = true) :
    d ≠ '/' ∧ d ≠ '?' ∧ d ≠ '#' ∧ d ≠ '@' := by
  refine ⟨?_, ?_, ?_, ?_⟩
  all_goals rintro rfl
  all_goals revert hd
  all_goals decide

/-- Re-parsing the serialization of a normalized endpoint returns it
unchanged. -/
theorem parseUrl_urlString (ui : Option (List Char)) (host port : List Char)
    (hh1 : host ≠ []) (hh2 : host.map Char.toLower = host)
    (hh3 : ∀ c ∈ host, c ≠ '/' ∧ c ≠ '?' ∧ c ≠ '#' ∧ c ≠ ':' ∧ c ≠ '@')
    (hui : ∀ ui0, ui = some ui0 → ∀ c ∈ ui0, c ≠ '/' ∧ c ≠ '?' ∧ c ≠ '#')
    (hport1 : parsePort (if port.isEmpty then [] else ':' :: port) = some port)
    (hport2 : ∀ c ∈ port, c.isDigit = true) :
    parseUrl (urlString ⟨"https:".toList, ui, host, port, "/sdk/vimService".toList, [], []⟩)
      = some ⟨"https:".toList, ui, host, port, "/sdk/vimService".toList, [], []⟩ := by
  have hpa_host : ∀ c ∈ host,
      (fun c => decide (c ≠ '/') && decide (c ≠ '?') && decide (c ≠ '#')) c = true := by
    intro c hc
    obtain ⟨h1, h2, h3, -, -⟩ := hh3 c hc
    simp [h1, h2, h3]
  have hpa_port : ∀ c ∈ (if port.isEmpty then [] else ':' :: port),
      (fun c => decide (c ≠ '/') && decide (c ≠ '?') && decide (c ≠ '#')) c = true := by
    intro c hc
    by_cases hpe : port.isEmpty
    · rw [if_pos hpe] at hc
      cases hc
    · rw [if_neg hpe] at hc
      rcases List.mem_cons.mp hc with rfl | hc
      · decide
      · obtain ⟨h1, h2, h3, -⟩ := digit_ne_special (hport2 c hc)
        simp [h1, h2, h3]
  have hcol_host : ∀ c ∈ host, (fun c => decide (c ≠ ':')) c = true := by
    intro c hc
    obtain ⟨-, -, -, h4, -⟩ := hh3 c hc
    simp [h4]
  have hat_hp : ∀ c ∈ host ++ (if port.isEmpty then [] else ':' :: port), c ≠ '@' := by
    intro c hc
    rcases List.mem_append.mp hc with hc | hc
    · exact (hh3 c hc).2.2.2.2
    · by_cases hpe : port.isEmpty
      · rw [if_pos hpe] at hc
        cases hc
      · rw [if_neg hpe] at hc
        rcases List.mem_cons.mp hc with rfl | hc
        · decide
        · exact (digit_ne_special (hport2 c hc)).2.2.2
  have hptw : (if port.isEmpty then [] else ':' :: port).takeWhile
      (fun c => decide (c ≠ ':')) = [] := by
    by_cases hpe : port.isEmpty
    · rw [if_pos hpe]
      rfl
    · rw [if_neg hpe]
      simp [List.takeWhile_cons]
  cases ui with
  | none =>
    have hL : urlString ⟨"https:".toList, none, host, port, "/sdk/vimService".toList, [], []⟩
        = "https:".toList ++ '/' :: '/' ::
          (host ++ ((if port.isEmpty then [] else ':' :: port) ++ "/sdk/vimService".toList)) := by
      simp only [urlString, List.append_assoc, List.append_nil, List.nil_append]
    rw [hL]
    simp only [parseUrl]
    rw [show ("https:".toList ++ '/' :: '/' ::
        (host ++ ((if port.isEmpty then [] else ':' :: port) ++ "/sdk/vimService".toList))).takeWhile
        (fun c => decide (c ≠ ':')) = "https".toList from rfl]
    rw [if_neg (by decide)]
    rw [show List.drop ("https".toList.length) ("https:".toList ++ '/' :: '/' ::
        (host ++ ((if port.isEmpty then [] else ':' :: port) ++ "/sdk/vimService".toList)))
        = ':' :: '/' :: '/' ::
          (host ++ ((if port.isEmpty then [] else ':' :: port) ++ "/sdk/vimService".toList))
        from rfl]
    simp only []
    have hr2 : List.drop (((host ++ ((if port.isEmpty then [] else ':' :: port)
        ++ "/sdk/vimService".toList)).takeWhile
          (fun c => decide (c ≠ '/') && decide (c ≠ '?') && decide (c ≠ '#'))).length)
        (host ++ ((if port.isEmpty then [] else ':' :: port) ++ "/sdk/vimService".toList))
        = "/sdk/vimService".toList := by
      rw [drop_takeWhile_length]
      rw [dropWhile_append_all hpa_host, dropWhile_append_all hpa_port]
      rfl
    rw [hr2]
    have hA : (host ++ ((if port.isEmpty then [] else ':' :: port)
        ++ "/sdk/vimService".toList)).takeWhile
          (fun c => decide (c ≠ '/') && decide (c ≠ '?') && decide (c ≠ '#'))
        = host ++ (if port.isEmpty then [] else ':' :: port) := by
      rw [takeWhile_append_all hpa_host, takeWhile_append_all hpa_port]
      rw [show ("/sdk/vimService".toList).takeWhile
        (fun c => decide (c ≠ '/') && decide (c ≠ '?') && decide (c ≠ '#')) = [] from rfl]
      rw [List.append_nil]
    rw [hA]
    rw [splitUserinfo_no_at hat_hp]
    simp only []
    have hHost : (host ++ (if port.isEmpty then [] else ':' :: port)).takeWhile
        (fun c => decide (c ≠ ':')) = host := by
      rw [takeWhile_append_all hcol_host, hptw, List.append_nil]
    rw [hHost]
    rw [if_neg hh1]
    rw [List.drop_left]
    rw [hport1]
    simp only []
    rw [hh2]
    rfl
  | some ui0 =>
    have hui0 := hui ui0 rfl
    have hpa_ui : ∀ c ∈ ui0 ++ ['@'],
        (fun c => decide (c ≠ '/') && decide (c ≠ '?') && decide (c ≠ '#')) c = true := by
      intro c hc
      rcases List.mem_append.mp hc with hc | hc
      · obtain ⟨h1, h2, h3⟩ := hui0 c hc
        simp [h1, h2, h3]
      · simp at hc
        subst hc
        decide
    have hL : urlString ⟨"https:".toList, some ui0, host, port,
        "/sdk/vimService".toList, [], []⟩
        = "https:".toList ++ '/' :: '/' ::
          ((ui0 ++ ['@']) ++ (host ++ ((if port.isEmpty then [] else ':' :: port)
            ++ "/sdk/vimService".toList))) := by
      simp only [urlString, List.append_assoc, List.append_nil, List.nil_append,
        List.cons_append]
    rw [hL]
    simp only [parseUrl]
    rw [show ("https:".toList ++ '/' :: '/' ::
        ((ui0 ++ ['@']) ++ (host ++ ((if port.isEmpty then [] else ':' :: port)
          ++ "/sdk/vimService".toList)))).takeWhile
        (fun c => decide (c ≠ ':')) = "https".toList from rfl]
    rw [if_neg (by decide)]
    rw [show List.drop ("https".toList.length) ("https:".toList ++ '/' :: '/' ::
        ((ui0 ++ ['@']) ++ (host ++ ((if port.isEmpty then [] else ':' :: port)
          ++ "/sdk/vimService".toList))))
        = ':' :: '/' :: '/' ::
          ((ui0 ++ ['@']) ++ (host ++ ((if port.isEmpty then [] else ':' :: port)
            ++ "/sdk/vimService".toList)))
        from rfl]
    simp only []
    have hr2 : List.drop ((((ui0 ++ ['@']) ++ (host ++ ((if port.isEmpty then [] else ':' :: port)
        ++ "/sdk/vimService".toList))).takeWhile
          (fun c => decide (c ≠ '/') && decide (c ≠ '?') && decide (c ≠ '#'))).length)
        ((ui0 ++ ['@']) ++ (host ++ ((if port.isEmpty then [] else ':' :: port)
          ++ "/sdk/vimService".toList)))
        = "/sdk/vimService".toList := by
      rw [drop_takeWhile_length]
      rw [dropWhile_append_all hpa_ui, dropWhile_append_all hpa_host,
        dropWhile_append_all hpa_port]
      rfl
    rw [hr2]
    have hA : ((ui0 ++ ['@']) ++ (host ++ ((if port.isEmpty then [] else ':' :: port)
        ++ "/sdk/vimService".toList))).takeWhile
          (fun c => decide (c ≠ '/') && decide (c ≠ '?') && decide (c ≠ '#'))
        = ui0 ++ '@' :: (host ++ (if port.isEmpty then [] else ':' :: port)) := by
      rw [takeWhile_append_all hpa_ui, takeWhile_append_all hpa_host,
        takeWhile_append_all hpa_port]
      rw [show ("/sdk/vimService".toList).takeWhile
        (fun c => decide (c ≠ '/') && decide (c ≠ '?') && decide (c ≠ '#')) = [] from rfl]
      rw [List.append_nil, List.append_assoc]
      rfl
    rw [hA]
    rw [splitUserinfo_at hat_hp]
    simp only []
    have hHost : (host ++ (if port.isEmpty then [] else ':' :: port)).takeWhile
        (fun c => decide (c ≠ ':')) = host := by
      rw [takeWhile_append_all hcol_host, hptw, List.append_nil]
    rw [hHost]
    rw [if_neg hh1]
    rw [List.drop_left]
    rw [hport1]
    simp only []
    rw [hh2]
    rfl


/-- Claim C7: `normalizeEndpoint` is idempotent — re-normalizing the string
form of any normalized endpoint returns the endpoint unchanged. -/
theorem c7_normalize_idempotent (s : String) (u : UrlModel)
    (h : normalizeEndpoint s = .ok u) :
    normalizeEndpoint (String.mk (urlString u)) = .ok u := by
  unfold normalizeEndpoint at h
  cases hp : parseUrl s.toList with
  | none =>
    rw [hp] at h
    cases h
  | some u0 =>
    obtain ⟨p0, ui0, ho0, po0, pa0, se0, ha0⟩ := u0
    rw [hp] at h
    simp only [] at h
    split at h
    · cases h
    · rename_i hproto
      cases h
      have hproto2 : p0 = "https:".toList := not_ne_iff.mp hproto
      subst hproto2
      obtain ⟨s1, s2, s3, s4, s5, s6⟩ := parseUrl_shape hp
      unfold normalizeEndpoint
      rw [show (String.mk (urlString ⟨"https:".toList, ui0, ho0, po0,
          "/sdk/vimService".toList, [], []⟩)).toList
          = urlString ⟨"https:".toList, ui0, ho0, po0,
            "/sdk/vimService".toList, [], []⟩ from rfl]
      rw [parseUrl_urlString ui0 ho0 po0 s1 s2 s3 s4 s5 s6]
      simp only []
      rw [if_neg (by simp)]

/-- Witness for claim C7 on a concrete address with mixed case, a userinfo
part, a non-default leading-zero port, a path, a query and a fragment. -/
theorem c7_witness :
    normalizeEndpoint "https://User@VC.Example.com:09443/a/b?x=1#y"
      = .ok ⟨"https:".toList, some "User".toList, "vc.example.com".toList,
          "9443".toList, "/sdk/vimService".toList, [], []⟩ ∧
    normalizeEndpoint (String.mk (urlString
        ⟨"https:".toList, some "User".toList, "vc.example.com".toList,
         "9443".toList, "/sdk/vimService".toList, [], []⟩))
      = .ok ⟨"https:".toList, some "User".toList, "vc.example.com".toList,
          "9443".toList, "/sdk/vimService".toList, [], []⟩ :=
  ⟨by rfl, c7_normalize_idempotent "https://User@VC.Example.com:09443/a/b?x=1#y" _ (by rfl)⟩

end VCSoap
